import Mathlib

/-!
Verification development for the source-structure index of the
codebase-indexing repository.

The embedding below translates the TypeScript core (src/codeIndexer.ts,
src/tree-sitter/index.ts, plus the earlier single-pass draft of the
indexer) into Lean:

* JavaScript strings are modelled as Lean `String` (a list of characters);
  the handful of JS string primitives the code uses (`toLowerCase`, `trim`,
  `includes`, `split(/\s+/)`) are modelled by executable character-list
  functions, faithful for the ASCII inputs the indexer works over.
* JS `Map` objects are modelled by insertion-ordered association lists
  (`JsMap`), with `get`/`set`/`delete`/`has`/`values` following the
  ECMAScript `Map` semantics (`set` updates in place, otherwise appends).
* JS numbers used for relevance scores are modelled by `ℚ`; every score the
  code manufactures is a small dyadic rational, where IEEE doubles are
  exact.
* `Array.prototype.sort` is modelled by the stable `List.mergeSort`
  (ECMAScript 2019 requires sort stability).
* Exceptions are modelled by `Except`/explicit outcome values.
-/

/-! Step lemmas evaluating one loop iteration of each search pass, with the
branch conditions supplied as hypotheses (the score guards are rationals,
which the kernel does not evaluate, so they are discharged by the
positivity lemmas above). -/

/-- Models JavaScript `String.prototype.toLowerCase` (codepoint-wise lowering,
which agrees with JS on the ASCII identifiers and source text the indexer
handles). -/
def lowerStr (s : String) : String :=
  ⟨s.data.map Char.toLower⟩

/-- Models JavaScript `String.prototype.trim`: remove whitespace from both
ends of the string. -/
def trimWs (s : String) : String :=
  ⟨((s.data.dropWhile Char.isWhitespace).reverse.dropWhile Char.isWhitespace).reverse⟩

/-- Models JavaScript `String.prototype.includes`: `strIncludes hay needle`
is true iff `needle` occurs as a contiguous substring of `hay` (the empty
needle always occurs). -/
def strIncludes (hay needle : String) : Bool :=
  hay.data.tails.any (fun t => needle.data.isPrefixOf t)

/-- Helper for `jsSplitWs`: collect the maximal non-whitespace runs of a
character list, left to right (`cur` is the reversed run currently being
read). Every string this emits is non-empty. -/
def wsWordsAux : List Char → List Char → List String
  | [], cur => if cur = [] then [] else [⟨cur.reverse⟩]
  | c :: cs, cur =>
    if c.isWhitespace then
      if cur = [] then wsWordsAux cs [] else ⟨cur.reverse⟩ :: wsWordsAux cs []
    else wsWordsAux cs (c :: cur)

/-- Models JavaScript `str.split(/\s+/)`: split on maximal whitespace runs.
The empty string yields `[""]`; a leading (resp. trailing) whitespace run
contributes a leading (resp. trailing) empty field, exactly as in
ECMAScript `String.prototype.split` with a regular expression separator. -/
def jsSplitWs (s : String) : List String :=
  if s.data = [] then [""]
  else
    (match s.data.head? with
     | some c => if c.isWhitespace then [""] else []
     | none => [])
    ++ wsWordsAux s.data []
    ++ (match s.data.getLast? with
        | some c => if c.isWhitespace then [""] else []
        | none => [])

/-- Scalar data of one materialized syntax node: the fields of the
TypeScript `CodeNode` interface except `children` (held by the inductive
wrapper below) and `parent` (a non-owning back-reference that none of the
indexing, search or lookup code paths ever read). -/
structure NodeInfo where
  id : String
  type : String
  name : Option String
  text : String
  startLine : Nat
  endLine : Nat
  startCol : Nat
  endCol : Nat
  filePath : String
deriving DecidableEq, Repr

/-- The TypeScript `CodeNode` record: scalar fields plus the ordered list of
children (source order, comments excluded by the materializer). -/
inductive CodeNode where
  | mk (info : NodeInfo) (children : List CodeNode)

/-- Scalar fields of a `CodeNode`. -/
def CodeNode.info : CodeNode → NodeInfo
  | .mk i _ => i

/-- Children of a `CodeNode`, in source order. -/
def CodeNode.children : CodeNode → List CodeNode
  | .mk _ cs => cs

mutual

/-- All node ids of the subtree rooted at a node, in preorder: these are the
keys that `indexNode` inserts into NodeIndex and `removeNodeFromIndex`
deletes from it. -/
def idsOf : CodeNode → List String
  | .mk i cs => i.id :: idsOfList cs

/-- All node ids of a forest, in preorder. -/
def idsOfList : List CodeNode → List String
  | [] => []
  | c :: cs => idsOf c ++ idsOfList cs

end

/-- Insertion-ordered association list modelling a JavaScript `Map` with
string keys. -/
@[reducible] def JsMap (α : Type) : Type := List (String × α)

/-- Models `Map.prototype.get`: the value at the first matching entry. -/
def JsMap.get {α : Type} (m : JsMap α) (k : String) : Option α :=
  (m.find? (fun p => p.1 == k)).map (fun p => p.2)

/-- Models `Map.prototype.has`. -/
def JsMap.has {α : Type} (m : JsMap α) (k : String) : Bool :=
  (m.find? (fun p => p.1 == k)).isSome

/-- Models `Map.prototype.set`: update the existing entry in place if the
key is present (keeping its position in iteration order), otherwise append
a new entry at the end. -/
def JsMap.set {α : Type} (m : JsMap α) (k : String) (v : α) : JsMap α :=
  if m.has k then m.map (fun p => if p.1 == k then (k, v) else p)
  else m ++ [(k, v)]

/-- Models `Map.prototype.delete` (drops the entry with the given key). -/
def JsMap.del {α : Type} (m : JsMap α) (k : String) : JsMap α :=
  m.filter (fun p => p.1 != k)

/-- Models `Map.prototype.values`: values in insertion order. -/
def JsMap.values {α : Type} (m : JsMap α) : List α :=
  m.map (fun p => p.2)

/-- Keys of the map in insertion order. -/
def JsMap.keysOf {α : Type} (m : JsMap α) : List String :=
  m.map (fun p => p.1)

/-- Mutable state of the `CodeIndexer` class: `fileIndex` maps a file path
to the file's materialized root node, `nodeIndex` maps a node id to the
node, flattened across files. -/
structure IndexerState where
  fileIndex : JsMap CodeNode
  nodeIndex : JsMap CodeNode

/-- State of a freshly constructed `CodeIndexer`: both maps empty. -/
def initState : IndexerState := ⟨[], []⟩

mutual

/-- Translation of `CodeIndexer.indexNode`: insert the node into NodeIndex
keyed by its id, then recursively insert every child. -/
def indexNode (m : JsMap CodeNode) : CodeNode → JsMap CodeNode
  | .mk i cs => indexNodeList (m.set i.id (.mk i cs)) cs

/-- Recursive part of `indexNode` over the child list. -/
def indexNodeList (m : JsMap CodeNode) : List CodeNode → JsMap CodeNode
  | [] => m
  | c :: cs => indexNodeList (indexNode m c) cs

end

mutual

/-- Translation of `CodeIndexer.removeNodeFromIndex`: delete the node's id
from NodeIndex, then recursively delete every child's subtree. -/
def removeNode (m : JsMap CodeNode) : CodeNode → JsMap CodeNode
  | .mk i cs => removeNodeList (m.del i.id) cs

/-- Recursive part of `removeNode` over the child list. -/
def removeNodeList (m : JsMap CodeNode) : List CodeNode → JsMap CodeNode
  | [] => m
  | c :: cs => removeNodeList (removeNode m c) cs

end

/-- A search hit, as in the TypeScript `QueryResult` interface: the node,
its relevance score, and the list of matched terms (named `matches` in the
source; `matches` is a reserved word in this Lean version). -/
structure QueryResult where
  node : CodeNode
  score : ℚ
  matchedTerms : List String

/-- Models the JS expression `node.name?.toLowerCase() || ""` used by
`search` (an absent name — and an empty one — contributes the empty
string). -/
def nodeNameLower (node : CodeNode) : String :=
  match node.info.name with
  | some nm => lowerStr nm
  | none => ""

/-- Translation of `CodeIndexer.calculateScore` (codeIndexer.ts): the score
starts at the number of matching terms, is doubled for function / method /
class declarations, multiplied by 1.5 for nodes spanning 3 to 30 lines, and
tripled when the node has a (truthy, i.e. non-empty) name of which some
matching term is a substring after lowering. -/
def calculateScore (node : CodeNode) (matchingTerms : List String) : ℚ :=
  let score : ℚ := matchingTerms.length
  let score :=
    if node.info.type ∈ ["function_declaration", "method_definition", "class_declaration"]
    then score * 2 else score
  let lines : Int := (node.info.endLine : Int) - (node.info.startLine : Int) + 1
  let score := if lines ≤ 30 ∧ 3 ≤ lines then score * (3 / 2) else score
  match node.info.name with
  | some nm =>
    if nm ≠ "" ∧ matchingTerms.any (fun term => strIncludes (lowerStr nm) term)
    then score * 3 else score
  | none => score

/-- Translation of `CodeIndexer.calculateSpecialTypeScore` (codeIndexer.ts):
base 1.0, plus 0.5 per query term occurring in the node text, doubled on a
name match, plus 0.75 per named `property_signature` child whose name
matches a query term. -/
def calculateSpecialTypeScore (node : CodeNode) (queryTerms : List String) : ℚ :=
  let score : ℚ := 1
  let nodeText := lowerStr node.info.text
  let matchingTerms := queryTerms.filter (fun term => strIncludes nodeText term)
  let score := score + matchingTerms.length * (1 / 2)
  let score :=
    match node.info.name with
    | some nm =>
      if nm ≠ "" ∧ queryTerms.any (fun term => strIncludes (lowerStr nm) term)
      then score * 2 else score
    | none => score
  let propertyMatches :=
    (node.children.filter (fun child =>
      child.info.type == "property_signature" &&
      (match child.info.name with
       | some nm => nm != "" && queryTerms.any (fun term => strIncludes (lowerStr nm) term)
       | none => false))).length
  score + propertyMatches * (3 / 4)

/-- First pass of the three-pass `CodeIndexer.search`: scan every node for
the full (lowercased, trimmed) query as a substring of its text, type or
name; matching nodes are scored against all query terms, recorded in the
`addedNodes` dedup list, and pushed with a doubled score. Returns the final
dedup list and the accumulated results. -/
def passOne (sql : String) (queryTerms : List String) :
    List CodeNode → List String → List QueryResult → List String × List QueryResult
  | [], added, results => (added, results)
  | node :: rest, added, results =>
    if strIncludes (lowerStr node.info.text) sql
       || strIncludes (lowerStr node.info.type) sql
       || strIncludes (nodeNameLower node) sql then
      let score := calculateScore node queryTerms
      if 0 < score ∧ added.contains node.info.id = false then
        passOne sql queryTerms rest (added ++ [node.info.id])
          (results ++ [⟨node, score * 2, [sql]⟩])
      else passOne sql queryTerms rest added results
    else passOne sql queryTerms rest added results

/-- Second pass of `CodeIndexer.search`: per-term matching for nodes not
already added in the first pass. Note that, as in the source, this pass
never records the nodes it pushes in the dedup list. -/
def passTwo (queryTerms : List String) (added : List String) :
    List CodeNode → List QueryResult → List QueryResult
  | [], results => results
  | node :: rest, results =>
    if added.contains node.info.id then passTwo queryTerms added rest results
    else
      let matchingTerms := queryTerms.filter (fun term =>
        strIncludes (lowerStr node.info.text) term
        || strIncludes (lowerStr node.info.type) term
        || strIncludes (nodeNameLower node) term)
      if 0 < matchingTerms.length then
        let score := calculateScore node matchingTerms
        if 0 < score then
          passTwo queryTerms added rest (results ++ [⟨node, score, matchingTerms⟩])
        else passTwo queryTerms added rest results
      else passTwo queryTerms added rest results

/-- Third pass of `CodeIndexer.search` (run only when the query mentions
"interface" or "type"): every `interface_declaration` / `type_alias` node
not recorded in the dedup list is scored by `calculateSpecialTypeScore` and
pushed with a 1.5 boost. -/
def passThree (queryTerms : List String) (added : List String) :
    List CodeNode → List QueryResult → List QueryResult
  | [], results => results
  | node :: rest, results =>
    if added.contains node.info.id then passThree queryTerms added rest results
    else if node.info.type = "interface_declaration" ∨ node.info.type = "type_alias" then
      let score := calculateSpecialTypeScore node queryTerms
      if 0 < score then
        passThree queryTerms added rest
          (results ++ [⟨node, score * (3 / 2), ["interface"]⟩])
      else passThree queryTerms added rest results
    else passThree queryTerms added rest results

/-- The unsorted result list built by the three passes of
`CodeIndexer.search`, in encounter order. -/
def searchCandidates (st : IndexerState) (query : String) : List QueryResult :=
  let sql := trimWs (lowerStr query)
  let queryTerms := jsSplitWs sql
  let nodes := st.nodeIndex.values
  let (added, r1) := passOne sql queryTerms nodes [] []
  let r2 := passTwo queryTerms added nodes r1
  if strIncludes sql "interface" || strIncludes sql "type" then
    passThree queryTerms added nodes r2
  else r2

/-- Descending-score comparison used to model the final
`results.sort((a, b) => b.score - a.score)` of `search`. -/
def scoreGe (a b : QueryResult) : Bool :=
  decide (b.score ≤ a.score)

/-- Translation of the three-pass `CodeIndexer.search` (codeIndexer.ts):
candidates from the three passes, sorted by descending score with a stable
sort (ECMAScript guarantees `Array.prototype.sort` stability). -/
def searchThreePass (st : IndexerState) (query : String) : List QueryResult :=
  (searchCandidates st query).mergeSort scoreGe

/-- Single pass of the draft `CodeIndexer.search` found in the unnamed
draft sources (part_001): nodes with text shorter than 10 characters are
skipped, remaining nodes are matched per term against the text only. -/
def passSingle (queryTerms : List String) :
    List CodeNode → List QueryResult → List QueryResult
  | [], results => results
  | node :: rest, results =>
    if node.info.text.length < 10 then passSingle queryTerms rest results
    else
      let matchingTerms := queryTerms.filter (fun term =>
        strIncludes (lowerStr node.info.text) term)
      if 0 < matchingTerms.length then
        let score := calculateScore node matchingTerms
        if 0 < score then
          passSingle queryTerms rest (results ++ [⟨node, score, matchingTerms⟩])
        else passSingle queryTerms rest results
      else passSingle queryTerms rest results

/-- Translation of the draft single-pass `CodeIndexer.search` (part_001):
note the query is lowercased but, unlike the three-pass version, not
trimmed before splitting. -/
def searchSinglePass (st : IndexerState) (query : String) : List QueryResult :=
  (passSingle (jsSplitWs (lowerStr query)) st.nodeIndex.values []).mergeSort scoreGe

/-- Containment test of `CodeIndexer.findNodeAtPosition`: true iff the
position lies outside the node's (end-inclusive) range. -/
def outsideNode (node : CodeNode) (line column : Nat) : Bool :=
  decide (line < node.info.startLine)
  || (line == node.info.startLine && decide (column < node.info.startCol))
  || decide (node.info.endLine < line)
  || (line == node.info.endLine && decide (node.info.endCol < column))

mutual

/-- Translation of `CodeIndexer.findNodeAtPosition`: `none` outside the
node's range; otherwise the first child whose subtree contains the
position, or the node itself when no child does. -/
def findNodeAtPosition (line column : Nat) : CodeNode → Option CodeNode
  | .mk i cs =>
    if outsideNode (.mk i cs) line column then none
    else
      match findNodeAtPosList line column cs with
      | some r => some r
      | none => some (.mk i cs)

/-- Descent of `findNodeAtPosition` over a child list: the first child whose
recursive search succeeds. -/
def findNodeAtPosList (line column : Nat) : List CodeNode → Option CodeNode
  | [] => none
  | c :: cs =>
    match findNodeAtPosition line column c with
    | some r => some r
    | none => findNodeAtPosList line column cs

end

/-- Translation of `CodeIndexer.getNodeAtPosition`: `null` when the file has
no indexed root, else descend from the root. -/
def getNodeAtPosition (st : IndexerState) (filePath : String) (line column : Nat) :
    Option CodeNode :=
  match st.fileIndex.get filePath with
  | none => none
  | some root => findNodeAtPosition line column root

/-- Translation of `CodeIndexer.getNodeText`: the text of the node with the
given id, or `null` when absent. -/
def getNodeText (st : IndexerState) (nodeId : String) : Option String :=
  (st.nodeIndex.get nodeId).map (fun node => node.info.text)

/-- Position record returned by `getNodePosition`. -/
structure NodePos where
  filePath : String
  startLine : Nat
  startCol : Nat
  endLine : Nat
  endCol : Nat
deriving DecidableEq, Repr

/-- Translation of `CodeIndexer.getNodePosition`: position data of the node
with the given id, or `null` when absent. -/
def getNodePosition (st : IndexerState) (nodeId : String) : Option NodePos :=
  match st.nodeIndex.get nodeId with
  | none => none
  | some node =>
    some ⟨node.info.filePath, node.info.startLine, node.info.startCol,
      node.info.endLine, node.info.endCol⟩

/-- Outcome of attempting to parse one file, as observed by `indexFile`:
either the file's extension has no registered parser (`indexFile` warns and
returns), or the read/parse throws (`indexFile` rethrows), or parsing
succeeds and materializes a root node. -/
inductive ParseOutcome where
  | noParser
  | parseError
  | ok (root : CodeNode)

/-- Translation of `CodeIndexer.indexFile`, with the file system and parser
abstracted into a `ParseOutcome`: on success the root is stored in
FileIndex and the subtree inserted into NodeIndex; with no parser the state
is untouched; a parse error leaves the state untouched (the exception
propagates before either map is written). -/
def indexFileS (st : IndexerState) (filePath : String) : ParseOutcome → IndexerState
  | .noParser => st
  | .parseError => st
  | .ok root =>
    { fileIndex := st.fileIndex.set filePath root
      nodeIndex := indexNode st.nodeIndex root }

/-- Result of `indexFile` as seen by a caller: `error` exactly when the
parse threw. -/
def indexFileE (st : IndexerState) (filePath : String) :
    ParseOutcome → Except Unit IndexerState
  | .noParser => .ok st
  | .parseError => .error ()
  | .ok root => .ok (indexFileS st filePath (.ok root))

/-- Translation of `CodeIndexer.updateFile`: evict the old root's subtree
from NodeIndex (if the file was indexed), then run `indexFile` again. Note
that the FileIndex entry is never removed here: only a successful re-parse
overwrites it. -/
def updateFileS (st : IndexerState) (filePath : String) (out : ParseOutcome) :
    IndexerState :=
  let st1 :=
    match st.fileIndex.get filePath with
    | some oldRoot => { st with nodeIndex := removeNode st.nodeIndex oldRoot }
    | none => st
  indexFileS st1 filePath out

/-- Modelled from the spec: `removeFile(filePath)` is specified in section
4.2 of the design document but has no implementation anywhere in the
repository's sources. Per the spec it looks up the current root (no-op if
absent), recursively deletes every descendant id from NodeIndex, and
removes the FileIndex entry. -/
def removeFileS (st : IndexerState) (filePath : String) : IndexerState :=
  match st.fileIndex.get filePath with
  | none => st
  | some root =>
    { fileIndex := st.fileIndex.del filePath
      nodeIndex := removeNode st.nodeIndex root }

/-- One mutating call on the index: `indexFile`, `updateFile` (each with the
outcome of its parse attempt) or the spec-modelled `removeFile`. -/
inductive IndexOp where
  | indexF (filePath : String) (out : ParseOutcome)
  | updateF (filePath : String) (out : ParseOutcome)
  | removeF (filePath : String)

/-- Apply one mutating call to the indexer state (the state reached after
the call, whether or not it also threw). -/
def stepOp (st : IndexerState) : IndexOp → IndexerState
  | .indexF fp out => indexFileS st fp out
  | .updateF fp out => updateFileS st fp out
  | .removeF fp => removeFileS st fp

/-- Run a sequence of mutating calls left to right. -/
def runOps (st : IndexerState) : List IndexOp → IndexerState
  | [] => st
  | op :: ops => runOps (stepOp st op) ops

/-- Translation of the indexing loop of `CodeIndexer.initialize`: index each
file in order; a parse error is caught, logged and rethrown, so it aborts
the loop. Returns the state reached together with `true` when the loop
completed and `false` when it was aborted by a rethrown per-file error. -/
def initializeRun (st : IndexerState) :
    List (String × ParseOutcome) → IndexerState × Bool
  | [] => (st, true)
  | (fp, out) :: rest =>
    match indexFileE st fp out with
    | .ok st1 => initializeRun st1 rest
    | .error _ => (st, false)

/-- One capture produced by the external tree-sitter query engine, as
consumed by `parseFile` (tree-sitter/index.ts): its label and the start and
end rows of the captured node. -/
structure Capture where
  label : String
  startRow : Nat
  endRow : Nat
deriving DecidableEq, Repr

/-- One line of the definition digest: either the block separator
`"|----"` or a rendered definition line `"│" + line`. -/
inductive OutLine where
  | sep
  | defLine (s : String)
deriving DecidableEq, Repr

/-- Models the JS truthiness test `lines[startLine]`: false when the index
is out of range (`undefined`) or the line is the empty string. -/
def lineTruthy (lines : List String) (i : Nat) : Bool :=
  match lines.get? i with
  | some s => s != ""
  | none => false

/-- Models the JS access `lines[startLine]` for a capture known to be
truthy. -/
def lineAt (lines : List String) (i : Nat) : String :=
  (lines.get? i).getD ""

/-- Translation of the capture loop of `parseFile` (tree-sitter/index.ts):
captures without "name" in their label are skipped entirely; a separator is
emitted when the current capture starts more than one row after `lastLine`
(the end row of the last emitted capture, initially -1); the capture's
first line is emitted, and `lastLine` advances, only when that line is
truthy. -/
def formatCaptures (lines : List String) : List Capture → Int → List OutLine
  | [], _ => []
  | c :: cs, lastLine =>
    if strIncludes c.label "name" = false then formatCaptures lines cs lastLine
    else
      let sepOut : List OutLine :=
        if lastLine ≠ -1 ∧ (c.startRow : Int) > lastLine + 1 then [.sep] else []
      if lineTruthy lines c.startRow then
        sepOut ++
          (.defLine (String.append "│" (lineAt lines c.startRow)) ::
            formatCaptures lines cs (c.endRow : Int))
      else sepOut ++ (formatCaptures lines cs lastLine)

/-- Separator required by the spec before a rendered capture starting at
`row`, given the end row `prev` of the previous rendered capture (if any):
one block separator exactly when the gap exceeds one line. -/
def sepSpec (prev : Option Nat) (row : Nat) : List OutLine :=
  match prev with
  | some e => if e + 1 < row then [.sep] else []
  | none => []

/-- Rendering of the definition digest as the spec describes it: keep only
the captures whose label contains "name", render each one's first line, and
put a separator between two consecutive rendered captures exactly when the
current capture's start row exceeds the previous rendered capture's end row
by more than one. `prev` is the end row of the previous rendered capture,
if any. -/
def renderDigestGo (lines : List String) : List Capture → Option Nat → List OutLine
  | [], _ => []
  | c :: cs, prev =>
    sepSpec prev c.startRow ++
      (.defLine (String.append "│" (lineAt lines c.startRow)) ::
        renderDigestGo lines cs (some c.endRow))

/-- Spec-side digest body: the name-labelled captures rendered in order with
gap separators. -/
def renderDigest (lines : List String) (captures : List Capture) : List OutLine :=
  renderDigestGo lines (captures.filter (fun c => strIncludes c.label "name")) none

/-- Outcome of `parseFile` (tree-sitter/index.ts) for one file, with the
file system and parser abstracted: no parser registered for the extension,
a thrown read/parse error, or a successful parse yielding the query's
captures and the file's lines. -/
inductive DigestOutcome where
  | noParser
  | parseError
  | ok (captures : List Capture) (lines : List String)

/-- Translation of `parseFile` (tree-sitter/index.ts): `null` for an
unsupported extension, `null` when the parse throws (the error is caught
inside), `null` for no captures or an empty body, otherwise the digest body
wrapped in leading and trailing separators. Captures are sorted by start
row (stably, as `Array.prototype.sort`) before formatting. -/
def parseFileModel : DigestOutcome → Option (List OutLine)
  | .noParser => none
  | .parseError => none
  | .ok captures lines =>
    if captures = [] then none
    else
      let sorted := captures.mergeSort (fun a b => decide (a.startRow ≤ b.startRow))
      let body := formatCaptures lines sorted (-1)
      if body = [] then none else some ((.sep :: body) ++ [.sep])

/-- Translation of the per-file loop of `parseSourceCodeForDefinitionsTopLevel`
(tree-sitter/index.ts): every file whose `parseFile` returns non-null
contributes its relative path and digest; files yielding `null` (including
every file whose parse threw) are skipped and the loop continues. -/
def digestRun (files : List (String × DigestOutcome)) : List (String × List OutLine) :=
  files.filterMap (fun fo => (parseFileModel fo.2).map (fun d => (fo.1, d)))

/-- Kind boost factor of `calculateScore`: ×2 for function, method and class
declarations. -/
def kindBoost (node : CodeNode) : ℚ :=
  if node.info.type ∈ ["function_declaration", "method_definition", "class_declaration"]
  then 2 else 1

/-- Size boost factor of `calculateScore`: ×1.5 when the node spans between
3 and 30 lines inclusive. -/
def sizeBoost (node : CodeNode) : ℚ :=
  if (node.info.endLine : Int) - node.info.startLine + 1 ≤ 30
     ∧ 3 ≤ (node.info.endLine : Int) - node.info.startLine + 1
  then 3 / 2 else 1

/-- Name-match condition as the spec words it: some matched term is a
substring of the node's lowercased name. -/
def nameMatchB (node : CodeNode) (terms : List String) : Bool :=
  match node.info.name with
  | some nm => terms.any (fun t => strIncludes (lowerStr nm) t)
  | none => false

/-- Name boost factor exactly as the code computes it (the JS truthiness
test `if (node.name)` additionally requires the name to be non-empty). -/
def nameBoost (node : CodeNode) (terms : List String) : ℚ :=
  match node.info.name with
  | some nm =>
    if nm ≠ "" ∧ (terms.any (fun t => strIncludes (lowerStr nm) t)) = true then 3 else 1
  | none => 1

/-- Concrete node used by the C2 witness: a one-line function declaration
named `add`. -/
def witNodeC2 : CodeNode :=
  .mk ⟨"m.ts:0:0", "function_declaration", some "add",
    "function add(a, b) return a plus b", 0, 0, 0, 36, "m.ts"⟩ []

/-- Child node of the concrete example of C3: spans rows 2–4. -/
def exampleChild : CodeNode :=
  .mk ⟨"ex.ts:2:0", "statement_block", none, "body", 2, 4, 0, 3, "ex.ts"⟩ []

/-- Root node of the concrete example of C3: spans rows 0–10 with the single
child `exampleChild`. -/
def exampleRoot : CodeNode :=
  .mk ⟨"ex.ts:0:0", "program", none, "program text", 0, 10, 0, 5, "ex.ts"⟩ [exampleChild]

/-- Indexer state holding the C3 example file. -/
def exampleSt : IndexerState :=
  ⟨[("ex.ts", exampleRoot)], indexNode [] exampleRoot⟩

/-- Relation between the loop counter `lastLine` of `formatCaptures` (an
integer, initially -1) and the previous rendered capture of the spec-side
rendering (`none` initially). -/
def lastLineOf : Option Nat → Int
  | none => -1
  | some e => (e : Int)

/-- Source lines for the C7 scenario: two one-line function definitions
separated by five blank lines. -/
def exLines : List String :=
  ["function a()", "", "", "", "", "", "function b()"]

/-- Captures for the C7 scenario: name captures of two definitions at rows 0
and 6 (five blank lines apart). -/
def exCaptures : List Capture :=
  [⟨"name.definition.function", 0, 0⟩, ⟨"name.definition.function", 6, 6⟩]

/-- Captures of two adjacent definitions (gap of at most one line). -/
def exCapturesAdjacent : List Capture :=
  [⟨"name.definition.function", 0, 0⟩, ⟨"name.definition.function", 1, 1⟩]

/-- Materialization of the second file in the C4 counterexample. -/
def witNodeC4 : CodeNode :=
  .mk ⟨"b.ts:0:0", "program", none, "let b = 1", 0, 0, 0, 9, "b.ts"⟩ []

/-- Node of the C5 counterexample: four characters of text. -/
def shortNode : CodeNode :=
  .mk ⟨"c.ts:0:0", "identifier", none, "type", 0, 0, 0, 4, "c.ts"⟩ []

/-- Indexer state holding only `shortNode`. -/
def stC5 : IndexerState := ⟨[("c.ts", shortNode)], [("c.ts:0:0", shortNode)]⟩

/-- Node of the C5 witness for the amended claim: text of length 11 matching
the query. -/
def longNode : CodeNode :=
  .mk ⟨"d.ts:0:0", "identifier", none, "hello world", 0, 0, 0, 11, "d.ts"⟩ []

/-- Indexer state holding only `longNode`. -/
def stC5w : IndexerState := ⟨[("d.ts", longNode)], [("d.ts:0:0", longNode)]⟩

/-- Node of the C6 counterexample. -/
def nodeC6 : CodeNode :=
  .mk ⟨"e.ts:0:0", "program", none, "let x = 1", 0, 0, 0, 9, "e.ts"⟩ []

/-- Indexer state holding only `nodeC6`. -/
def stC6 : IndexerState := ⟨[("e.ts", nodeC6)], [("e.ts:0:0", nodeC6)]⟩

/-- First node of the C9 witness: a one-line statement matching "hello". -/
def nodeC9a : CodeNode :=
  .mk ⟨"f.ts:0:0", "expression_statement", none, "hello aaa", 0, 0, 0, 9, "f.ts"⟩ []

/-- Second node of the C9 witness: same kind, same line count, also matching
"hello". -/
def nodeC9b : CodeNode :=
  .mk ⟨"f.ts:1:0", "expression_statement", none, "hello bbb", 1, 1, 0, 9, "f.ts"⟩ []

/-- Indexer state with the two equal-scoring C9 nodes, `nodeC9a` encountered
first. -/
def stC9 : IndexerState :=
  ⟨[], [("f.ts:0:0", nodeC9a), ("f.ts:1:0", nodeC9b)]⟩

/-- First search hit of the C9 witness. -/
def raC9 : QueryResult := ⟨nodeC9a, 2, ["hello"]⟩

/-- Second search hit of the C9 witness (equal score). -/
def rbC9 : QueryResult := ⟨nodeC9b, 2, ["hello"]⟩

/-- Node of the C10 failing input: an interface declaration whose text
mentions "type" but not the whole query. -/
def nodeC10 : CodeNode :=
  .mk ⟨"g.ts:0:0", "interface_declaration", none, "interface A has type inside",
    0, 0, 0, 27, "g.ts"⟩ []

/-- Indexer state holding only `nodeC10`. -/
def stC10 : IndexerState := ⟨[("g.ts", nodeC10)], [("g.ts:0:0", nodeC10)]⟩

/-- Ids reachable from the roots currently stored in FileIndex. -/
def reachableIds (st : IndexerState) : List String :=
  (st.fileIndex.map (fun p => idsOf p.2)).flatten

/-- The NodeIndex–FileIndex consistency invariant of the spec: NodeIndex's
keys are exactly the ids of all nodes reachable from all roots currently in
FileIndex. -/
def IndexInv (st : IndexerState) : Prop :=
  ∀ k, st.nodeIndex.has k = true ↔ k ∈ reachableIds st

/-- Distinct entries of a file map own disjoint id sets. -/
def SepIdsM (m : JsMap CodeNode) : Prop :=
  ∀ p ∈ m, ∀ q ∈ m, p.1 ≠ q.1 → ∀ i ∈ idsOf p.2, i ∉ idsOf q.2

/-- Inductive invariant carried across admissible runs: consistency,
per-file id ownership, and no duplicate FileIndex keys. -/
def GoodSt (st : IndexerState) : Prop :=
  IndexInv st ∧ SepIdsM st.fileIndex ∧ st.fileIndex.keysOf.Nodup

/-- Decidable admissibility check for a freshly materialized root of `fp`:
its ids are disjoint from every other file's current root (the spec's
per-file id-uniqueness guarantee, provided by the parser's unique start
positions). -/
def rootOkFor (st : IndexerState) (fp : String) (root : CodeNode) : Bool :=
  st.fileIndex.all (fun p => p.1 == fp
    || (idsOf root).all (fun i => !((idsOf p.2).contains i)))

/-- Admissible operation sequences of the amended C1: `indexFile` only on
files not currently indexed, `updateFile` with a successful re-parse, new
roots id-disjoint from the other files' roots, and `removeFile`
unrestricted. -/
inductive OkOps : IndexerState → List IndexOp → Prop where
  | nil (st : IndexerState) : OkOps st []
  | index (st : IndexerState) (fp : String) (root : CodeNode) (ops : List IndexOp)
      (hfresh : st.fileIndex.has fp = false)
      (hok : rootOkFor st fp root = true)
      (hrest : OkOps (stepOp st (.indexF fp (.ok root))) ops) :
      OkOps st (.indexF fp (.ok root) :: ops)
  | update (st : IndexerState) (fp : String) (root : CodeNode) (ops : List IndexOp)
      (hok : rootOkFor st fp root = true)
      (hrest : OkOps (stepOp st (.updateF fp (.ok root))) ops) :
      OkOps st (.updateF fp (.ok root) :: ops)
  | remove (st : IndexerState) (fp : String) (ops : List IndexOp)
      (hrest : OkOps (stepOp st (.removeF fp)) ops) :
      OkOps st (.removeF fp :: ops)

/-- Node of the C1 counterexample and witness. -/
def nodeC1 : CodeNode :=
  .mk ⟨"a.ts:0:0", "program", none, "let a = 1", 0, 0, 0, 9, "a.ts"⟩ []

theorem JsMap.get_eq_none {α : Type} (m : JsMap α) (k : String)
    (h : m.has k = false) : m.get k = none := by
  unfold JsMap.has at h
  unfold JsMap.get
  cases hf : List.find? (fun p => p.1 == k) m with
  | none => rfl
  | some p =>
    rw [hf] at h
    simp at h

theorem JsMap.has_true_iff {α : Type} (m : JsMap α) (k : String) :
    m.has k = true ↔ ∃ v, (k, v) ∈ m := by
  unfold JsMap.has
  rw [List.find?_isSome]
  constructor
  · rintro ⟨⟨k', v⟩, hmem, hk⟩
    simp only [beq_iff_eq] at hk
    exact ⟨v, by rwa [hk] at hmem⟩
  · rintro ⟨v, hmem⟩
    exact ⟨(k, v), hmem, by simp⟩

theorem JsMap.mem_set {α : Type} (m : JsMap α) (k : String) (v : α)
    (p : String × α) :
    p ∈ m.set k v ↔ (p ∈ m ∧ p.1 ≠ k) ∨ p = (k, v) := by
  unfold JsMap.set
  by_cases h : m.has k = true
  · rw [if_pos h, List.mem_map]
    rw [JsMap.has_true_iff] at h
    obtain ⟨w, hw⟩ := h
    constructor
    · rintro ⟨q, hq, he⟩
      by_cases hqk : q.1 = k
      · right
        rw [← he]
        simp [hqk]
      · left
        constructor
        · rwa [← he, if_neg (by simpa using hqk)]
        · rw [← he, if_neg (by simpa using hqk)]
          exact hqk
    · rintro (⟨hmem, hne⟩ | he)
      · exact ⟨p, hmem, by rw [if_neg (by simpa using hne)]⟩
      · exact ⟨(k, w), hw, by simp [he]⟩
  · rw [if_neg h, List.mem_append, List.mem_singleton]
    constructor
    · rintro (hmem | he)
      · left
        refine ⟨hmem, ?_⟩
        intro hk
        rw [Bool.not_eq_true] at h
        have : ∃ w, (k, w) ∈ m := ⟨p.2, by rwa [← hk, Prod.mk.eta]⟩
        rw [← JsMap.has_true_iff] at this
        rw [h] at this
        cases this
      · right
        exact he
    · rintro (⟨hmem, _⟩ | he)
      · left
        exact hmem
      · right
        exact he

theorem JsMap.has_set {α : Type} (m : JsMap α) (k : String) (v : α) (k' : String) :
    (m.set k v).has k' = true ↔ m.has k' = true ∨ k' = k := by
  rw [JsMap.has_true_iff]
  constructor
  · rintro ⟨w, hw⟩
    rw [JsMap.mem_set] at hw
    rcases hw with ⟨hmem, _⟩ | he
    · left
      rw [JsMap.has_true_iff]
      exact ⟨w, hmem⟩
    · right
      exact congrArg Prod.fst he
  · rintro (hh | he)
    · rw [JsMap.has_true_iff] at hh
      obtain ⟨w, hw⟩ := hh
      by_cases hk : k' = k
      · exact ⟨v, by rw [JsMap.mem_set]; right; rw [hk]⟩
      · exact ⟨w, by rw [JsMap.mem_set]; left; exact ⟨hw, hk⟩⟩
    · exact ⟨v, by rw [JsMap.mem_set]; right; rw [he]⟩

theorem JsMap.mem_del {α : Type} (m : JsMap α) (k : String) (p : String × α) :
    p ∈ m.del k ↔ p ∈ m ∧ p.1 ≠ k := by
  unfold JsMap.del
  rw [List.mem_filter]
  simp [bne_iff_ne]

theorem JsMap.has_del {α : Type} (m : JsMap α) (k : String) (k' : String) :
    (m.del k).has k' = true ↔ m.has k' = true ∧ k' ≠ k := by
  rw [JsMap.has_true_iff, JsMap.has_true_iff]
  constructor
  · rintro ⟨w, hw⟩
    rw [JsMap.mem_del] at hw
    exact ⟨⟨w, hw.1⟩, hw.2⟩
  · rintro ⟨⟨w, hw⟩, hne⟩
    exact ⟨w, by rw [JsMap.mem_del]; exact ⟨hw, hne⟩⟩

theorem JsMap.get_some_mem {α : Type} (m : JsMap α) (k : String) (v : α)
    (h : m.get k = some v) : (k, v) ∈ m := by
  unfold JsMap.get at h
  cases hf : List.find? (fun p => p.1 == k) m with
  | none =>
    rw [hf] at h
    cases h
  | some p =>
    rw [hf] at h
    simp only [Option.map_some', Option.some.injEq] at h
    have hmem := List.mem_of_find?_eq_some hf
    have hk := List.find?_some hf
    simp only [beq_iff_eq] at hk
    have hp : p = (k, v) := Prod.ext hk h
    rwa [hp] at hmem

theorem JsMap.mem_get_of_nodup {α : Type} (m : JsMap α) (k : String) (v : α)
    (hnd : m.keysOf.Nodup) (hmem : (k, v) ∈ m) : m.get k = some v := by
  unfold JsMap.get
  induction m with
  | nil => cases hmem
  | cons q rest ih =>
    unfold JsMap.keysOf at hnd
    rw [List.map_cons, List.nodup_cons] at hnd
    rcases List.mem_cons.mp hmem with he | hrest
    · rw [← he]
      simp
    · have hqk : (q.1 == k) = false := by
        rw [beq_eq_false_iff_ne]
        intro hq
        exact hnd.1 (by rw [hq]; exact List.mem_map_of_mem Prod.fst hrest)
      rw [List.find?_cons, hqk]
      exact ih hnd.2 hrest

theorem JsMap.mem_values {α : Type} (m : JsMap α) (v : α) :
    v ∈ m.values ↔ ∃ p ∈ m, p.2 = v := by
  unfold JsMap.values
  exact List.mem_map

theorem JsMap.keysOf_set_of_has {α : Type} (m : JsMap α) (k : String) (v : α)
    (h : m.has k = true) : (m.set k v).keysOf = m.keysOf := by
  unfold JsMap.set JsMap.keysOf
  rw [if_pos h, List.map_map]
  refine List.map_congr_left ?_
  intro p _
  by_cases hp : (p.1 == k) = true
  · simp only [Function.comp_apply]
    rw [if_pos hp]
    exact (beq_iff_eq.mp hp).symm
  · simp only [Function.comp_apply]
    rw [if_neg hp]

theorem JsMap.keysOf_set_nodup {α : Type} (m : JsMap α) (k : String) (v : α)
    (hnd : m.keysOf.Nodup) : (m.set k v).keysOf.Nodup := by
  by_cases h : m.has k = true
  · rw [JsMap.keysOf_set_of_has m k v h]
    exact hnd
  · have hk : k ∉ List.map Prod.fst m := by
      intro hkm
      rw [List.mem_map] at hkm
      obtain ⟨p, hp, he⟩ := hkm
      have hh : m.has k = true := by
        rw [JsMap.has_true_iff]
        refine ⟨p.2, ?_⟩
        rw [← he, Prod.mk.eta]
        exact hp
      exact h hh
    unfold JsMap.set
    rw [if_neg h]
    unfold JsMap.keysOf at hnd ⊢
    rw [List.map_append, List.nodup_append]
    refine ⟨hnd, by simp, ?_⟩
    simp only [List.map_cons, List.map_nil]
    intro a ha hb
    rw [List.mem_singleton] at hb
    exact hk (hb ▸ ha)

theorem JsMap.keysOf_del_nodup {α : Type} (m : JsMap α) (k : String)
    (hnd : m.keysOf.Nodup) : (m.del k).keysOf.Nodup := by
  unfold JsMap.del JsMap.keysOf at *
  exact (List.Sublist.map Prod.fst (List.filter_sublist m)).nodup hnd

mutual

theorem has_indexNode : ∀ (m : JsMap CodeNode) (n : CodeNode) (k : String),
    (indexNode m n).has k = true ↔ m.has k = true ∨ k ∈ idsOf n
  | m, .mk i cs, k => by
    rw [indexNode, idsOf]
    rw [has_indexNodeList (m.set i.id (.mk i cs)) cs k]
    rw [JsMap.has_set]
    rw [List.mem_cons]
    tauto

theorem has_indexNodeList : ∀ (m : JsMap CodeNode) (l : List CodeNode) (k : String),
    (indexNodeList m l).has k = true ↔ m.has k = true ∨ k ∈ idsOfList l
  | m, [], k => by
    rw [indexNodeList, idsOfList]
    simp
  | m, c :: cs, k => by
    rw [indexNodeList, idsOfList]
    rw [has_indexNodeList (indexNode m c) cs k]
    rw [has_indexNode m c k]
    rw [List.mem_append]
    tauto

end

/-- Closed multiplicative form of `calculateScore`. -/
theorem calculateScore_eq (node : CodeNode) (terms : List String) :
    calculateScore node terms =
      (terms.length : ℚ) * kindBoost node * sizeBoost node * nameBoost node terms := by
  unfold calculateScore kindBoost sizeBoost nameBoost
  cases hn : node.info.name with
  | none =>
    simp only [hn]
    split <;> split <;> ring
  | some nm =>
    simp only [hn]
    split <;> split <;> split <;> ring

/-- Positivity of the three boost factors. -/
theorem kindBoost_pos (node : CodeNode) : 0 < kindBoost node := by
  unfold kindBoost
  split
  · norm_num
  · norm_num

theorem sizeBoost_pos (node : CodeNode) : 0 < sizeBoost node := by
  unfold sizeBoost
  split
  · norm_num
  · norm_num

theorem nameBoost_pos (node : CodeNode) (terms : List String) :
    0 < nameBoost node terms := by
  unfold nameBoost
  cases hn : node.info.name with
  | none => norm_num
  | some nm =>
    simp only [hn]
    split <;> norm_num

/-- Scores of non-trivially-matched candidates are positive: `calculateScore`
is positive whenever at least one term matched. -/
theorem calculateScore_pos (node : CodeNode) (terms : List String)
    (h : terms ≠ []) : 0 < calculateScore node terms := by
  rw [calculateScore_eq]
  have hlen : 0 < (terms.length : ℚ) := by
    have := List.length_pos.mpr h
    exact_mod_cast this
  have h1 := kindBoost_pos node
  have h2 := sizeBoost_pos node
  have h3 := nameBoost_pos node terms
  positivity

/-- Positivity of `calculateSpecialTypeScore`: the base is 1 and every
contribution is nonnegative, so the score of the interface/type pass is
always positive. -/
theorem calculateSpecialTypeScore_pos (node : CodeNode) (terms : List String) :
    0 < calculateSpecialTypeScore node terms := by
  unfold calculateSpecialTypeScore
  cases hn : node.info.name with
  | none =>
    simp only [hn]
    positivity
  | some nm =>
    simp only [hn]
    split
    · positivity
    · positivity

/-- C2: for a non-empty set of matched terms the relevance score equals the
number of matched terms times the three independent multiplicative boosts
(×2 for function/method/class kinds, ×1.5 for 3–30-line spans, ×3 for a
name match); consequently a node with a name match scores at least three
times a structurally identical node (same kind, same line count, same
matched terms) without one. The truthiness test `if (node.name)` in the
source makes an empty-string name unable to match, so the node is assumed
to not carry the (degenerate) name `""`. -/
theorem C2_score_formula (node : CodeNode) (terms : List String)
    (hterms : terms ≠ []) (hname : node.info.name ≠ some "") :
    calculateScore node terms =
      (terms.length : ℚ) * kindBoost node * sizeBoost node
        * (if nameMatchB node terms then 3 else 1)
    ∧ ∀ other : CodeNode, other.info.type = node.info.type →
        (other.info.endLine : Int) - other.info.startLine
          = (node.info.endLine : Int) - node.info.startLine →
        nameMatchB node terms = true → nameMatchB other terms = false →
        3 * calculateScore other terms ≤ calculateScore node terms := by
  have hlen : 0 < terms.length := List.length_pos.mpr hterms
  have hnb : nameBoost node terms = if nameMatchB node terms then 3 else 1 := by
    unfold nameBoost nameMatchB
    cases hn : node.info.name with
    | none => simp
    | some nm =>
      simp only [hn]
      have hne : nm ≠ "" := fun he => hname (by rw [hn, he])
      by_cases ha : (terms.any (fun t => strIncludes (lowerStr nm) t)) = true
      · rw [if_pos ⟨hne, ha⟩, if_pos ha]
      · rw [if_neg (fun hc => ha hc.2), if_neg ha]
  constructor
  · rw [calculateScore_eq, hnb]
  · intro other htype hlines hm hnm
    have hko : kindBoost other = kindBoost node := by
      unfold kindBoost
      rw [htype]
    have hso : sizeBoost other = sizeBoost node := by
      unfold sizeBoost
      rw [hlines]
    have hnbo : nameBoost other terms = 1 := by
      unfold nameBoost
      unfold nameMatchB at hnm
      cases ho : other.info.name with
      | none => simp only [ho]
      | some nm =>
        simp only [ho] at hnm
        simp only [ho]
        rw [if_neg]
        intro hc
        rw [hc.2] at hnm
        simp at hnm
    have hnbn : nameBoost node terms = 3 := by
      rw [hnb, if_pos hm]
    rw [calculateScore_eq node, calculateScore_eq other, hko, hso, hnbo, hnbn]
    exact le_of_eq (by ring)

/-- Witness for C2: the hypotheses hold and the theorem applies at the node
`witNodeC2` with the single matched term "add". -/
theorem C2_score_formula_witness :
    (["add"] : List String) ≠ [] ∧ witNodeC2.info.name ≠ some ""
    ∧ (calculateScore witNodeC2 ["add"] =
        ((["add"] : List String).length : ℚ) * kindBoost witNodeC2 * sizeBoost witNodeC2
          * (if nameMatchB witNodeC2 ["add"] then 3 else 1)
      ∧ ∀ other : CodeNode, other.info.type = witNodeC2.info.type →
          (other.info.endLine : Int) - other.info.startLine
            = (witNodeC2.info.endLine : Int) - witNodeC2.info.startLine →
          nameMatchB witNodeC2 ["add"] = true → nameMatchB other ["add"] = false →
          3 * calculateScore other ["add"] ≤ calculateScore witNodeC2 ["add"]) :=
  ⟨by decide, by decide, C2_score_formula witNodeC2 ["add"] (by decide) (by decide)⟩

/-- C8: lookups against missing index state return `null` rather than
throwing: `getNodeText` and `getNodePosition` return `none` for a node id
absent from NodeIndex (for example after its file's nodes were removed),
and `getNodeAtPosition` returns `none` for a file that was never indexed. -/
theorem C8_absent_lookups (st : IndexerState) (nodeId filePath : String)
    (line column : Nat)
    (hnode : st.nodeIndex.has nodeId = false)
    (hfile : st.fileIndex.has filePath = false) :
    getNodeText st nodeId = none ∧ getNodePosition st nodeId = none
      ∧ getNodeAtPosition st filePath line column = none := by
  have h1 := JsMap.get_eq_none st.nodeIndex nodeId hnode
  have h2 := JsMap.get_eq_none st.fileIndex filePath hfile
  refine ⟨?_, ?_, ?_⟩
  · unfold getNodeText
    rw [h1]
    rfl
  · unfold getNodePosition
    rw [h1]
  · unfold getNodeAtPosition
    rw [h2]

/-- Witness for C8 on the empty indexer state at a concrete id, path and
position. -/
theorem C8_absent_lookups_witness :
    initState.nodeIndex.has "a.ts:0:0" = false
    ∧ initState.fileIndex.has "a.ts" = false
    ∧ (getNodeText initState "a.ts:0:0" = none
      ∧ getNodePosition initState "a.ts:0:0" = none
      ∧ getNodeAtPosition initState "a.ts" 1 2 = none) :=
  ⟨rfl, rfl, C8_absent_lookups initState "a.ts:0:0" "a.ts" 1 2 rfl rfl⟩

/-- The position resolver returns `none` exactly on positions outside the
node's range. -/
theorem findNode_none_iff (line column : Nat) (n : CodeNode) :
    findNodeAtPosition line column n = none ↔ outsideNode n line column = true := by
  cases n with
  | mk i cs =>
    rw [findNodeAtPosition]
    by_cases h : outsideNode (.mk i cs) line column = true
    · rw [if_pos h]
      simp [h]
    · rw [if_neg h]
      rw [Bool.not_eq_true] at h
      rw [h]
      constructor
      · intro hc
        cases hf : findNodeAtPosList line column cs with
        | none =>
          rw [hf] at hc
          cases hc
        | some r =>
          rw [hf] at hc
          cases hc
      · intro hc
        cases hc

/-- Characterization of the child descent: it resolves to the first child
whose range contains the position (equivalently, whose subtree search
succeeds), searched recursively. -/
theorem findNodeAtPosList_eq (line column : Nat) (l : List CodeNode) :
    findNodeAtPosList line column l =
      match l.find? (fun c => !(outsideNode c line column)) with
      | some c => findNodeAtPosition line column c
      | none => none := by
  induction l with
  | nil => rfl
  | cons c cs ih =>
    rw [findNodeAtPosList]
    by_cases h : outsideNode c line column = true
    · have hn : findNodeAtPosition line column c = none :=
        (findNode_none_iff line column c).mpr h
      rw [hn]
      rw [List.find?_cons_of_neg _ (by rw [h]; simp)]
      exact ih
    · have h' : outsideNode c line column = false := by rwa [Bool.not_eq_true] at h
      rw [List.find?_cons_of_pos _ (by rw [h']; simp)]
      cases hf : findNodeAtPosition line column c with
      | none =>
        have := (findNode_none_iff line column c).mp hf
        rw [h'] at this
        cases this
      | some r => exact hf.symm

/-- A failed child descent means every child's range excludes the
position. -/
theorem findNodeAtPosList_none (line column : Nat) (l : List CodeNode)
    (h : findNodeAtPosList line column l = none) :
    ∀ c ∈ l, outsideNode c line column = true := by
  rw [findNodeAtPosList_eq] at h
  cases hf : l.find? (fun c => !(outsideNode c line column)) with
  | some c =>
    rw [hf] at h
    have hp := List.find?_some hf
    have hn := (findNode_none_iff line column c).mp h
    rw [hn] at hp
    cases hp
  | none =>
    intro c hc
    have := List.find?_eq_none.mp hf c hc
    simpa using this

mutual

theorem findNode_deepest : ∀ (line column : Nat) (n r : CodeNode),
    findNodeAtPosition line column n = some r →
    outsideNode r line column = false ∧ ∀ c ∈ r.children, outsideNode c line column = true
  | line, column, .mk i cs, r => fun h => by
    rw [findNodeAtPosition] at h
    by_cases ho : outsideNode (.mk i cs) line column = true
    · rw [if_pos ho] at h
      cases h
    · rw [if_neg ho] at h
      cases hf : findNodeAtPosList line column cs with
      | some r' =>
        rw [hf] at h
        injection h with he
        exact he ▸ findList_deepest line column cs r' hf
      | none =>
        rw [hf] at h
        injection h with he
        rw [Bool.not_eq_true] at ho
        refine ⟨he ▸ ho, ?_⟩
        rw [← he, CodeNode.children]
        exact findNodeAtPosList_none line column cs hf

theorem findList_deepest : ∀ (line column : Nat) (l : List CodeNode) (r : CodeNode),
    findNodeAtPosList line column l = some r →
    outsideNode r line column = false ∧ ∀ c ∈ r.children, outsideNode c line column = true
  | line, column, [], r => fun h => by cases h
  | line, column, c :: cs, r => fun h => by
    rw [findNodeAtPosList] at h
    cases hf : findNodeAtPosition line column c with
    | some r' =>
      rw [hf] at h
      injection h with he
      exact he ▸ findNode_deepest line column c r' hf
    | none =>
      rw [hf] at h
      exact findList_deepest line column cs r h

end

/-- C3: `getNodeAtPosition` returns `null` iff the file has no indexed root
or the position lies outside the root's (end-inclusive) range; otherwise it
descends into children in order, follows the first child whose subtree
contains the position, and returns the current node only when no child
contains it — so the result is a deepest containing node (no child of the
result contains the position). With a root spanning rows 0–10 and a child
spanning rows 2–4, a query at row 3 returns the child, never the root. -/
theorem C3_position_resolver (st : IndexerState) (filePath : String) (line column : Nat) :
    (getNodeAtPosition st filePath line column = none ↔
      st.fileIndex.get filePath = none
      ∨ ∃ root, st.fileIndex.get filePath = some root ∧ outsideNode root line column = true)
    ∧ (∀ n : CodeNode, findNodeAtPosition line column n =
        if outsideNode n line column = true then none
        else
          match n.children.find? (fun c => !(outsideNode c line column)) with
          | some c => findNodeAtPosition line column c
          | none => some n)
    ∧ (∀ n r : CodeNode, findNodeAtPosition line column n = some r →
        outsideNode r line column = false
        ∧ ∀ c ∈ r.children, outsideNode c line column = true)
    ∧ (getNodeAtPosition exampleSt "ex.ts" 3 0).map (fun n => n.info.id) = some "ex.ts:2:0" := by
  refine ⟨?_, ?_, ?_, rfl⟩
  · cases hg : st.fileIndex.get filePath with
    | none =>
      unfold getNodeAtPosition
      rw [hg]
      simp
    | some root =>
      unfold getNodeAtPosition
      rw [hg]
      constructor
      · intro h
        right
        exact ⟨root, rfl, (findNode_none_iff line column root).mp h⟩
      · rintro (hn | ⟨root', he, hout⟩)
        · cases hn
        · injection he with he'
          exact (findNode_none_iff line column root).mpr (he' ▸ hout)
  · intro n
    cases n with
    | mk i cs =>
      rw [findNodeAtPosition]
      by_cases ho : outsideNode (.mk i cs) line column = true
      · rw [if_pos ho, if_pos ho]
      · rw [if_neg ho, if_neg ho]
        rw [findNodeAtPosList_eq]
        rw [CodeNode.children]
        cases hf : cs.find? (fun c => !(outsideNode c line column)) with
        | none => rfl
        | some c =>
          have hp := List.find?_some hf
          have hcf : outsideNode c line column = false := by
            cases hoc : outsideNode c line column
            · rfl
            · rw [hoc] at hp
              cases hp
          show (match findNodeAtPosition line column c with
            | some r => some r
            | none => some (CodeNode.mk i cs)) = findNodeAtPosition line column c
          cases hg : findNodeAtPosition line column c with
          | none =>
            have hx := (findNode_none_iff line column c).mp hg
            rw [hcf] at hx
            cases hx
          | some r => rfl
  · exact fun n r => findNode_deepest line column n r

/-- Witness for C3: a concrete successful descent, with the deepest-node
conclusion instantiated on the example tree. -/
theorem C3_position_resolver_witness :
    findNodeAtPosition 3 0 exampleRoot = some exampleChild
    ∧ (outsideNode exampleChild 3 0 = false
      ∧ ∀ c ∈ exampleChild.children, outsideNode c 3 0 = true) :=
  ⟨rfl, (C3_position_resolver exampleSt "ex.ts" 3 0).2.2.1 exampleRoot exampleChild rfl⟩

/-- The capture loop of `parseFile` coincides with the spec-side rendering
whenever every name-labelled capture starts on a truthy (in-range,
non-empty) line — which holds for real captures, whose start line carries
the captured name's text. -/
theorem formatCaptures_eq_renderGo (lines : List String) :
    ∀ (cs : List Capture) (prev : Option Nat),
    (∀ c ∈ cs, strIncludes c.label "name" = true → lineTruthy lines c.startRow = true) →
    formatCaptures lines cs (lastLineOf prev) =
      renderDigestGo lines (cs.filter (fun c => strIncludes c.label "name")) prev := by
  intro cs
  induction cs with
  | nil =>
    intro prev h
    rfl
  | cons c cs ih =>
    intro prev h
    rw [formatCaptures]
    by_cases hname : strIncludes c.label "name" = true
    · rw [if_neg (by rw [hname]; simp)]
      have htr : lineTruthy lines c.startRow = true := h c (List.mem_cons_self c cs) hname
      rw [if_pos htr]
      rw [List.filter_cons, if_pos hname]
      rw [renderDigestGo]
      have hsep : (if lastLineOf prev ≠ -1 ∧ (c.startRow : Int) > lastLineOf prev + 1
          then ([OutLine.sep]) else []) = sepSpec prev c.startRow := by
        cases prev with
        | none =>
          rw [sepSpec]
          simp [lastLineOf]
        | some e =>
          rw [sepSpec]
          simp only [lastLineOf]
          have hc1 : (e : Int) ≠ -1 := by omega
          by_cases hgt : e + 1 < c.startRow
          · have hc2 : (c.startRow : Int) > (e : Int) + 1 := by omega
            rw [if_pos ⟨hc1, hc2⟩, if_pos hgt]
          · have hc2 : ¬((e : Int) ≠ -1 ∧ (c.startRow : Int) > (e : Int) + 1) := by
              rintro ⟨h1, h2⟩
              exact hgt (by omega)
            rw [if_neg hc2, if_neg hgt]
      rw [hsep]
      have htail := ih (some c.endRow) (fun c' hc' => h c' (List.mem_cons_of_mem c hc'))
      simp only [lastLineOf] at htail
      rw [htail]
    · have hfalse : strIncludes c.label "name" = false := by
        rwa [Bool.not_eq_true] at hname
      rw [if_pos hfalse]
      rw [List.filter_cons, if_neg (by rw [hfalse]; simp)]
      exact ih prev (fun c' hc' => h c' (List.mem_cons_of_mem c hc'))

/-- C7: in the definition digest only name-labelled captures produce output
lines, and a separator appears between two consecutive rendered captures
exactly when the current capture's start row exceeds the previous rendered
capture's end row by more than one: the loop equals the spec-side rendering
`renderDigest` (assuming each name capture starts on a truthy line, as real
captures do); two definitions five blank lines apart yield exactly one
separator between them, and adjacent definitions yield none. -/
theorem C7_digest_separators (lines : List String) (captures : List Capture)
    (htruthy : ∀ c ∈ captures,
      strIncludes c.label "name" = true → lineTruthy lines c.startRow = true) :
    formatCaptures lines captures (-1) = renderDigest lines captures
    ∧ (formatCaptures exLines exCaptures (-1)).count OutLine.sep = 1
    ∧ (formatCaptures exLines exCapturesAdjacent (-1)).count OutLine.sep = 0 :=
  ⟨formatCaptures_eq_renderGo lines captures none htruthy, rfl, rfl⟩

/-- Witness for C7: the truthiness hypothesis holds for the concrete
scenario captures, on which the theorem then applies. -/
theorem C7_digest_separators_witness :
    (∀ c ∈ exCaptures,
      strIncludes c.label "name" = true → lineTruthy exLines c.startRow = true)
    ∧ formatCaptures exLines exCaptures (-1) = renderDigest exLines exCaptures :=
  ⟨by decide, (C7_digest_separators exLines exCaptures (by decide)).1⟩

/-- C4 (amended): in the definition-digest bulk run a per-file parse failure
is local — the failing file contributes nothing and the remaining files are
still processed; in `CodeIndexer.initialize`, however, the failing file is
left unindexed with the state untouched (not partially populated) but the
caught error is rethrown, so the run aborts and the remaining files are not
indexed: any run containing a parse failure ends aborted. -/
theorem C4_parse_failure_amended :
    (∀ (pre post : List (String × DigestOutcome)) (fp : String),
      digestRun (pre ++ (fp, DigestOutcome.parseError) :: post)
        = digestRun pre ++ digestRun post)
    ∧ (∀ (st : IndexerState) (fp : String) (rest : List (String × ParseOutcome)),
      initializeRun st ((fp, ParseOutcome.parseError) :: rest) = (st, false))
    ∧ (∀ (files : List (String × ParseOutcome)) (st : IndexerState),
      (∃ fp, (fp, ParseOutcome.parseError) ∈ files)
        → (initializeRun st files).2 = false) := by
  refine ⟨?_, ?_, ?_⟩
  · intro pre post fp
    unfold digestRun
    rw [List.filterMap_append]
    congr 1
  · intro st fp rest
    rfl
  · intro files
    induction files with
    | nil =>
      intro st h
      obtain ⟨fp, hfp⟩ := h
      cases hfp
    | cons fo rest ih =>
      intro st h
      obtain ⟨fp, hfp⟩ := h
      obtain ⟨fp', out⟩ := fo
      cases out with
      | parseError => rfl
      | noParser =>
        rw [initializeRun]
        refine ih st ⟨fp, ?_⟩
        rcases List.mem_cons.mp hfp with he | hrest
        · cases he
        · exact hrest
      | ok root =>
        rw [initializeRun]
        refine ih (indexFileS st fp' (.ok root)) ⟨fp, ?_⟩
        rcases List.mem_cons.mp hfp with he | hrest
        · cases he
        · exact hrest

/-- Counterexample to C4 as stated: in the `initialize` bulk run over a
parse-failing `a.ts` followed by a well-formed `b.ts`, the run is aborted
and `b.ts` is never indexed — a per-file parse failure does abort this
overall indexing run. -/
theorem C4_counterexample :
    (initializeRun initState
        [("a.ts", ParseOutcome.parseError), ("b.ts", ParseOutcome.ok witNodeC4)]).2 = false
    ∧ JsMap.has (initializeRun initState
        [("a.ts", ParseOutcome.parseError), ("b.ts", ParseOutcome.ok witNodeC4)]).1.fileIndex
        "b.ts" = false
    ∧ JsMap.has (initializeRun initState
        [("a.ts", ParseOutcome.parseError), ("b.ts", ParseOutcome.ok witNodeC4)]).1.fileIndex
        "a.ts" = false :=
  ⟨rfl, rfl, rfl⟩

/-- Witness for the amended C4 at a concrete one-file run containing a parse
failure. -/
theorem C4_parse_failure_amended_witness :
    (∃ fp, (fp, ParseOutcome.parseError) ∈ [("a.ts", ParseOutcome.parseError)])
    ∧ (initializeRun initState [("a.ts", ParseOutcome.parseError)]).2 = false :=
  ⟨⟨"a.ts", List.mem_singleton.mpr rfl⟩,
    C4_parse_failure_amended.2.2 [("a.ts", ParseOutcome.parseError)] initState
      ⟨"a.ts", List.mem_singleton.mpr rfl⟩⟩

theorem passOne_step_yes (sql : String) (terms : List String) (node : CodeNode)
    (rest : List CodeNode) (added : List String) (results : List QueryResult)
    (hcond : (strIncludes (lowerStr node.info.text) sql
       || strIncludes (lowerStr node.info.type) sql
       || strIncludes (nodeNameLower node) sql) = true)
    (hscore : 0 < calculateScore node terms)
    (hadd : added.contains node.info.id = false) :
    passOne sql terms (node :: rest) added results =
      passOne sql terms rest (added ++ [node.info.id])
        (results ++ [⟨node, calculateScore node terms * 2, [sql]⟩]) := by
  rw [passOne, if_pos hcond]
  simp only []
  rw [if_pos ⟨hscore, hadd⟩]

theorem passOne_step_skip (sql : String) (terms : List String) (node : CodeNode)
    (rest : List CodeNode) (added : List String) (results : List QueryResult)
    (hcond : (strIncludes (lowerStr node.info.text) sql
       || strIncludes (lowerStr node.info.type) sql
       || strIncludes (nodeNameLower node) sql) = false) :
    passOne sql terms (node :: rest) added results =
      passOne sql terms rest added results := by
  rw [passOne, if_neg (by rw [hcond]; simp)]

theorem passTwo_step_added (terms added : List String) (node : CodeNode)
    (rest : List CodeNode) (results : List QueryResult)
    (hadd : added.contains node.info.id = true) :
    passTwo terms added (node :: rest) results = passTwo terms added rest results := by
  rw [passTwo, if_pos hadd]

theorem passTwo_step_yes (terms added : List String) (node : CodeNode)
    (rest : List CodeNode) (results : List QueryResult)
    (hadd : added.contains node.info.id = false)
    (hmt : 0 < (terms.filter (fun term =>
        strIncludes (lowerStr node.info.text) term
        || strIncludes (lowerStr node.info.type) term
        || strIncludes (nodeNameLower node) term)).length)
    (hscore : 0 < calculateScore node (terms.filter (fun term =>
        strIncludes (lowerStr node.info.text) term
        || strIncludes (lowerStr node.info.type) term
        || strIncludes (nodeNameLower node) term))) :
    passTwo terms added (node :: rest) results =
      passTwo terms added rest (results ++
        [⟨node, calculateScore node (terms.filter (fun term =>
            strIncludes (lowerStr node.info.text) term
            || strIncludes (lowerStr node.info.type) term
            || strIncludes (nodeNameLower node) term)),
          terms.filter (fun term =>
            strIncludes (lowerStr node.info.text) term
            || strIncludes (lowerStr node.info.type) term
            || strIncludes (nodeNameLower node) term)⟩]) := by
  rw [passTwo, if_neg (by rw [hadd]; simp)]
  simp only []
  rw [if_pos hmt, if_pos hscore]

theorem passTwo_step_noMatch (terms added : List String) (node : CodeNode)
    (rest : List CodeNode) (results : List QueryResult)
    (hadd : added.contains node.info.id = false)
    (hmt : (terms.filter (fun term =>
        strIncludes (lowerStr node.info.text) term
        || strIncludes (lowerStr node.info.type) term
        || strIncludes (nodeNameLower node) term)).length = 0) :
    passTwo terms added (node :: rest) results = passTwo terms added rest results := by
  rw [passTwo, if_neg (by rw [hadd]; simp)]
  simp only []
  rw [if_neg (by rw [hmt]; simp)]

theorem passThree_step_added (terms added : List String) (node : CodeNode)
    (rest : List CodeNode) (results : List QueryResult)
    (hadd : added.contains node.info.id = true) :
    passThree terms added (node :: rest) results = passThree terms added rest results := by
  rw [passThree, if_pos hadd]

theorem passThree_step_other (terms added : List String) (node : CodeNode)
    (rest : List CodeNode) (results : List QueryResult)
    (hadd : added.contains node.info.id = false)
    (hty : ¬(node.info.type = "interface_declaration" ∨ node.info.type = "type_alias")) :
    passThree terms added (node :: rest) results = passThree terms added rest results := by
  rw [passThree, if_neg (by rw [hadd]; simp), if_neg hty]

theorem passThree_step_special (terms added : List String) (node : CodeNode)
    (rest : List CodeNode) (results : List QueryResult)
    (hadd : added.contains node.info.id = false)
    (hty : node.info.type = "interface_declaration" ∨ node.info.type = "type_alias") :
    passThree terms added (node :: rest) results =
      passThree terms added rest (results ++
        [⟨node, calculateSpecialTypeScore node terms * (3 / 2), ["interface"]⟩]) := by
  rw [passThree, if_neg (by rw [hadd]; simp), if_pos hty]
  simp only []
  rw [if_pos (calculateSpecialTypeScore_pos node terms)]

theorem passSingle_step_yes (terms : List String) (node : CodeNode)
    (rest : List CodeNode) (results : List QueryResult)
    (hlen : ¬(node.info.text.length < 10))
    (hmt : 0 < (terms.filter (fun term =>
        strIncludes (lowerStr node.info.text) term)).length)
    (hscore : 0 < calculateScore node (terms.filter (fun term =>
        strIncludes (lowerStr node.info.text) term))) :
    passSingle terms (node :: rest) results =
      passSingle terms rest (results ++
        [⟨node, calculateScore node (terms.filter (fun term =>
            strIncludes (lowerStr node.info.text) term)),
          terms.filter (fun term => strIncludes (lowerStr node.info.text) term)⟩]) := by
  rw [passSingle, if_neg hlen]
  simp only []
  rw [if_pos hmt, if_pos hscore]

/-- Every result the single-pass draft search accumulates beyond its initial
accumulator has text of at least the minimum length 10. -/
theorem passSingle_minLength (terms : List String) :
    ∀ (nodes : List CodeNode) (acc : List QueryResult) (r : QueryResult),
    r ∈ passSingle terms nodes acc →
    r ∈ acc ∨ 10 ≤ r.node.info.text.length := by
  intro nodes
  induction nodes with
  | nil =>
    intro acc r h
    rw [passSingle] at h
    left
    exact h
  | cons node rest ih =>
    intro acc r h
    simp only [passSingle] at h
    split at h
    · exact ih acc r h
    · next hlen =>
      split at h
      · split at h
        · rcases ih _ r h with hacc | hlen10
          · rcases List.mem_append.mp hacc with h1 | h2
            · left
              exact h1
            · right
              rw [List.mem_singleton] at h2
              rw [h2]
              show 10 ≤ node.info.text.length
              omega
          · right
            exact hlen10
        · exact ih acc r h
      · exact ih acc r h

/-- C5 (amended): the 10-character minimum-length rejection belongs to the
single-pass draft search (part_001): no result of `searchSinglePass` has
text shorter than 10 characters. The current three-pass `search` in
codeIndexer.ts applies no such filter (see the counterexample). -/
theorem C5_min_length_single_pass (st : IndexerState) (query : String)
    (r : QueryResult) (hr : r ∈ searchSinglePass st query) :
    ¬(r.node.info.text.length < 10) := by
  rw [searchSinglePass, List.mem_mergeSort] at hr
  rcases passSingle_minLength (jsSplitWs (lowerStr query)) st.nodeIndex.values [] r hr with
    hacc | hlen
  · cases hacc
  · omega

/-- Counterexample to C5 as stated: the three-pass `search` of codeIndexer.ts
returns a node whose text has only 4 characters — no minimum-length
rejection takes place there. -/
theorem C5_counterexample :
    (searchThreePass stC5 "type").map (fun r => r.node.info.text.length) = [4]
    ∧ 4 < 10 := by
  have hpos : 0 < calculateScore shortNode ["type"] :=
    calculateScore_pos shortNode ["type"] (by decide)
  have hcand : searchCandidates stC5 "type" =
      [⟨shortNode, calculateScore shortNode ["type"] * 2, ["type"]⟩] := by
    unfold searchCandidates stC5
    simp only []
    rw [show trimWs (lowerStr "type") = "type" from rfl]
    rw [show jsSplitWs "type" = ["type"] from rfl]
    rw [show JsMap.values [("c.ts:0:0", shortNode)] = [shortNode] from rfl]
    rw [passOne_step_yes "type" ["type"] shortNode [] [] [] rfl hpos rfl]
    rw [passOne]
    simp only [List.nil_append]
    rw [passTwo_step_added ["type"] [shortNode.info.id] shortNode [] _ rfl]
    rw [passTwo]
    rw [if_pos (show (strIncludes "type" "interface" || strIncludes "type" "type") = true from rfl)]
    rw [passThree_step_added ["type"] [shortNode.info.id] shortNode [] _ rfl]
    rw [passThree]
  rw [searchThreePass, hcand]
  rw [List.mergeSort_singleton]
  exact ⟨rfl, by omega⟩

/-- Witness for the amended C5: a concrete result of the single-pass search
(so its membership hypothesis is satisfiable) indeed has text of length at
least 10. -/
theorem C5_min_length_single_pass_witness :
    (⟨longNode, calculateScore longNode ["hello"], ["hello"]⟩ : QueryResult)
      ∈ searchSinglePass stC5w "hello"
    ∧ ¬((⟨longNode, calculateScore longNode ["hello"], ["hello"]⟩ : QueryResult).node.info.text.length < 10) := by
  have hpos : 0 < calculateScore longNode ["hello"] :=
    calculateScore_pos longNode ["hello"] (by decide)
  have hmem : (⟨longNode, calculateScore longNode ["hello"], ["hello"]⟩ : QueryResult)
      ∈ searchSinglePass stC5w "hello" := by
    rw [searchSinglePass, List.mem_mergeSort]
    rw [show jsSplitWs (lowerStr "hello") = ["hello"] from rfl]
    rw [show JsMap.values stC5w.nodeIndex = [longNode] from rfl]
    rw [passSingle_step_yes ["hello"] longNode [] [] (by decide)
      (by rw [show List.filter (fun term => strIncludes (lowerStr longNode.info.text) term)
          ["hello"] = ["hello"] from rfl]; decide)
      (by rw [show List.filter (fun term => strIncludes (lowerStr longNode.info.text) term)
          ["hello"] = ["hello"] from rfl]; exact hpos)]
    rw [passSingle]
    rw [show List.filter (fun term => strIncludes (lowerStr longNode.info.text) term)
        ["hello"] = ["hello"] from rfl]
    simp
  exact ⟨hmem, C5_min_length_single_pass stC5w "hello" _ hmem⟩

/-- The empty needle is a substring of every string (JS
`"x".includes("")` is true). -/
theorem strIncludes_empty (s : String) : strIncludes s "" = true := by
  unfold strIncludes
  cases hd : s.data with
  | nil => rfl
  | cons c cs => rfl

/-- Every word emitted by `wsWordsAux` is non-empty. -/
theorem wsWordsAux_ne_empty : ∀ (l cur : List Char) (t : String),
    t ∈ wsWordsAux l cur → t ≠ "" := by
  intro l
  induction l with
  | nil =>
    intro cur t ht
    rw [wsWordsAux] at ht
    by_cases hc : cur = []
    · rw [if_pos hc] at ht
      cases ht
    · rw [if_neg hc] at ht
      rw [List.mem_singleton] at ht
      rw [ht]
      intro he
      have hdata := congrArg String.data he
      simp only [] at hdata
      exact hc (List.reverse_eq_nil_iff.mp hdata)
  | cons c cs ih =>
    intro cur t ht
    rw [wsWordsAux] at ht
    by_cases hw : c.isWhitespace = true
    · rw [if_pos hw] at ht
      by_cases hc : cur = []
      · rw [if_pos hc] at ht
        exact ih [] t ht
      · rw [if_neg hc] at ht
        rcases List.mem_cons.mp ht with he | hrest
        · rw [he]
          intro hcon
          have hdata := congrArg String.data hcon
          simp only [] at hdata
          exact hc (List.reverse_eq_nil_iff.mp hdata)
        · exact ih [] t hrest
    · rw [if_neg hw] at ht
      exact ih (c :: cur) t ht

/-- The first character of a trimmed string is never whitespace. -/
theorem trimWs_head_not_ws (x : String) (c : Char)
    (h : (trimWs x).data.head? = some c) : c.isWhitespace = false := by
  unfold trimWs at h
  simp only [] at h
  rw [List.head?_reverse] at h
  have hb : ((x.data.dropWhile Char.isWhitespace).reverse.dropWhile Char.isWhitespace) ≠ [] := by
    intro he
    rw [he] at h
    cases h
  have hm : ((x.data.dropWhile Char.isWhitespace).reverse).getLast? = some c := by
    conv_lhs => rw [← List.takeWhile_append_dropWhile Char.isWhitespace
      (x.data.dropWhile Char.isWhitespace).reverse]
    rw [List.getLast?_append_of_ne_nil _ hb]
    exact h
  rw [List.getLast?_reverse] at hm
  have hnot := List.head?_dropWhile_not Char.isWhitespace x.data
  rw [hm] at hnot
  exact hnot

theorem trimWs_last_not_ws (x : String) (c : Char)
    (h : (trimWs x).data.getLast? = some c) : c.isWhitespace = false := by
  unfold trimWs at h
  simp only [] at h
  rw [List.getLast?_reverse] at h
  have := List.head?_dropWhile_not Char.isWhitespace
    (x.data.dropWhile Char.isWhitespace).reverse
  rw [h] at this
  exact this

theorem passOne_step_noPush (sql : String) (terms : List String) (node : CodeNode)
    (rest : List CodeNode) (added : List String) (results : List QueryResult)
    (hcond : (strIncludes (lowerStr node.info.text) sql
       || strIncludes (lowerStr node.info.type) sql
       || strIncludes (nodeNameLower node) sql) = true)
    (hguard : ¬(0 < calculateScore node terms ∧ added.contains node.info.id = false)) :
    passOne sql terms (node :: rest) added results =
      passOne sql terms rest added results := by
  rw [passOne, if_pos hcond]
  simp only []
  rw [if_neg hguard]

/-- The first pass only appends to its result accumulator. -/
theorem passOne_results_prefix (sql : String) (terms : List String) :
    ∀ (nodes : List CodeNode) (added : List String) (results : List QueryResult),
    ∃ ext, (passOne sql terms nodes added results).2 = results ++ ext := by
  intro nodes
  induction nodes with
  | nil =>
    intro added results
    exact ⟨[], by rw [passOne]; simp⟩
  | cons n rest ih =>
    intro added results
    by_cases h1 : (strIncludes (lowerStr n.info.text) sql
       || strIncludes (lowerStr n.info.type) sql
       || strIncludes (nodeNameLower n) sql) = true
    · by_cases h2 : 0 < calculateScore n terms ∧ added.contains n.info.id = false
      · rw [passOne_step_yes sql terms n rest added results h1 h2.1 h2.2]
        obtain ⟨ext, he⟩ := ih (added ++ [n.info.id])
          (results ++ [⟨n, calculateScore n terms * 2, [sql]⟩])
        exact ⟨⟨n, calculateScore n terms * 2, [sql]⟩ :: ext, by rw [he, List.append_assoc]; rfl⟩
      · rw [passOne_step_noPush sql terms n rest added results h1 h2]
        exact ih added results
    · rw [passOne_step_skip sql terms n rest added results (by rwa [Bool.not_eq_true] at h1)]
      exact ih added results

/-- The second pass only appends to its result accumulator. -/
theorem passTwo_results_prefix (terms added : List String) :
    ∀ (nodes : List CodeNode) (results : List QueryResult),
    ∃ ext, passTwo terms added nodes results = results ++ ext := by
  intro nodes
  induction nodes with
  | nil =>
    intro results
    exact ⟨[], by rw [passTwo]; simp⟩
  | cons n rest ih =>
    intro results
    by_cases hadd : added.contains n.info.id = true
    · rw [passTwo_step_added terms added n rest results hadd]
      exact ih results
    · have hadd' : added.contains n.info.id = false := by rwa [Bool.not_eq_true] at hadd
      by_cases hmt : 0 < (terms.filter (fun term =>
          strIncludes (lowerStr n.info.text) term
          || strIncludes (lowerStr n.info.type) term
          || strIncludes (nodeNameLower n) term)).length
      · by_cases hsc : 0 < calculateScore n (terms.filter (fun term =>
            strIncludes (lowerStr n.info.text) term
            || strIncludes (lowerStr n.info.type) term
            || strIncludes (nodeNameLower n) term))
        · rw [passTwo_step_yes terms added n rest results hadd' hmt hsc]
          obtain ⟨ext, he⟩ := ih (results ++ [_])
          refine ⟨_ :: ext, by rw [he, List.append_assoc]; rfl⟩
        · rw [passTwo, if_neg (by rw [hadd']; simp)]
          simp only []
          rw [if_pos hmt, if_neg hsc]
          exact ih results
      · rw [passTwo_step_noMatch terms added n rest results hadd' (by omega)]
        exact ih results

/-- The third pass only appends to its result accumulator. -/
theorem passThree_results_prefix (terms added : List String) :
    ∀ (nodes : List CodeNode) (results : List QueryResult),
    ∃ ext, passThree terms added nodes results = results ++ ext := by
  intro nodes
  induction nodes with
  | nil =>
    intro results
    exact ⟨[], by rw [passThree]; simp⟩
  | cons n rest ih =>
    intro results
    by_cases hadd : added.contains n.info.id = true
    · rw [passThree_step_added terms added n rest results hadd]
      exact ih results
    · have hadd' : added.contains n.info.id = false := by rwa [Bool.not_eq_true] at hadd
      by_cases hty : n.info.type = "interface_declaration" ∨ n.info.type = "type_alias"
      · rw [passThree_step_special terms added n rest results hadd' hty]
        obtain ⟨ext, he⟩ := ih (results ++ [_])
        refine ⟨_ :: ext, by rw [he, List.append_assoc]; rfl⟩
      · rw [passThree_step_other terms added n rest results hadd' hty]
        exact ih results

/-- With the empty search query every indexed node is matched by the first
pass: its id ends up associated with some accumulated result. -/
theorem passOne_empty_covers :
    ∀ (nodes : List CodeNode) (added : List String) (results : List QueryResult),
    (∀ id ∈ added, ∃ r ∈ results, r.node.info.id = id) →
    ∀ node ∈ nodes,
    ∃ r ∈ (passOne "" [""] nodes added results).2, r.node.info.id = node.info.id := by
  intro nodes
  induction nodes with
  | nil =>
    intro added results _ node hmem
    cases hmem
  | cons n rest ih =>
    intro added results hinv node hmem
    have hcond : (strIncludes (lowerStr n.info.text) ""
       || strIncludes (lowerStr n.info.type) ""
       || strIncludes (nodeNameLower n) "") = true := by
      rw [strIncludes_empty, strIncludes_empty, strIncludes_empty]
      rfl
    have hpos : 0 < calculateScore n [""] := calculateScore_pos n [""] (by decide)
    by_cases hadd : added.contains n.info.id = true
    · rw [passOne_step_noPush "" [""] n rest added results hcond
        (fun hc => by rw [hadd] at hc; cases hc.2)]
      rcases List.mem_cons.mp hmem with he | hr
      · obtain ⟨r, hrres, hrid⟩ := hinv n.info.id (List.elem_iff.mp hadd)
        obtain ⟨ext, hext⟩ := passOne_results_prefix "" [""] rest added results
        refine ⟨r, ?_, by rw [hrid, he]⟩
        rw [hext]
        exact List.mem_append_left ext hrres
      · exact ih added results hinv node hr
    · have hadd' : added.contains n.info.id = false := by rwa [Bool.not_eq_true] at hadd
      rw [passOne_step_yes "" [""] n rest added results hcond hpos hadd']
      have hinv' : ∀ id ∈ added ++ [n.info.id],
          ∃ r ∈ results ++ [⟨n, calculateScore n [""] * 2, [""]⟩],
          r.node.info.id = id := by
        intro id hid
        rcases List.mem_append.mp hid with h1 | h2
        · obtain ⟨r, hr, hrid⟩ := hinv id h1
          exact ⟨r, List.mem_append_left _ hr, hrid⟩
        · rw [List.mem_singleton] at h2
          refine ⟨⟨n, calculateScore n [""] * 2, [""]⟩, List.mem_append_right _ ?_, h2 ▸ rfl⟩
          exact List.mem_singleton.mpr rfl
      rcases List.mem_cons.mp hmem with he | hr
      · obtain ⟨ext, hext⟩ := passOne_results_prefix "" [""] rest (added ++ [n.info.id])
          (results ++ [⟨n, calculateScore n [""] * 2, [""]⟩])
        refine ⟨⟨n, calculateScore n [""] * 2, [""]⟩, ?_, by rw [he]⟩
        rw [hext]
        refine List.mem_append_left ext (List.mem_append_right results ?_)
        exact List.mem_singleton.mpr rfl
      · exact ih (added ++ [n.info.id])
          (results ++ [⟨n, calculateScore n [""] * 2, [""]⟩]) hinv' node hr

/-- C6 (amended): `search` lowercases and trims the query and splits it on
whitespace runs; for a query with a non-whitespace character all resulting
terms are non-empty, but an empty or whitespace-only query yields the single
empty term `""`, which is a substring of every node's text — so instead of
matching no node, such a query matches every indexed node (each one appears
in the results with a positive, doubled, score). -/
theorem C6_query_normalization (q : String) (st : IndexerState) :
    (trimWs (lowerStr q) ≠ "" → ∀ t ∈ jsSplitWs (trimWs (lowerStr q)), t ≠ "")
    ∧ (trimWs (lowerStr q) = "" → ∀ node ∈ st.nodeIndex.values,
        ∃ r ∈ searchThreePass st q, r.node.info.id = node.info.id) := by
  constructor
  · intro hne t ht
    have hdata : (trimWs (lowerStr q)).data ≠ [] := by
      intro hd
      apply hne
      have he : trimWs (lowerStr q) = ⟨(trimWs (lowerStr q)).data⟩ := rfl
      rw [hd] at he
      exact he
    rw [jsSplitWs, if_neg hdata] at ht
    rcases List.mem_append.mp ht with h1 | h2
    · rcases List.mem_append.mp h1 with hl | hw
      · cases hh : (trimWs (lowerStr q)).data.head? with
        | none =>
          rw [hh] at hl
          cases hl
        | some c =>
          rw [hh] at hl
          simp [trimWs_head_not_ws (lowerStr q) c hh] at hl
      · exact wsWordsAux_ne_empty _ [] t hw
    · cases hh : (trimWs (lowerStr q)).data.getLast? with
      | none =>
        rw [hh] at h2
        cases h2
      | some c =>
        rw [hh] at h2
        simp [trimWs_last_not_ws (lowerStr q) c hh] at h2
  · intro hempty node hnode
    unfold searchThreePass searchCandidates
    simp only []
    rw [hempty]
    rw [show jsSplitWs "" = [""] from rfl]
    obtain ⟨r, hr, hrid⟩ := passOne_empty_covers st.nodeIndex.values [] [] (by simp) node hnode
    cases hp : passOne "" [""] st.nodeIndex.values [] [] with
    | mk added r1 =>
      rw [hp] at hr
      simp only [] at hr ⊢
      obtain ⟨ext2, hext2⟩ := passTwo_results_prefix [""] added st.nodeIndex.values r1
      rw [if_neg (by decide)]
      refine ⟨r, ?_, hrid⟩
      rw [List.mem_mergeSort, hext2]
      exact List.mem_append_left ext2 hr

/-- Counterexample to C6 as stated: the empty query does not produce an
empty term set (it produces the single empty term) and does not match no
node — over a one-node index it returns that node. -/
theorem C6_counterexample :
    jsSplitWs (trimWs (lowerStr "")) = [""]
    ∧ (searchThreePass stC6 "").map (fun r => r.node.info.id) = ["e.ts:0:0"] := by
  refine ⟨rfl, ?_⟩
  have hpos : 0 < calculateScore nodeC6 [""] := calculateScore_pos nodeC6 [""] (by decide)
  have hcand : searchCandidates stC6 "" =
      [⟨nodeC6, calculateScore nodeC6 [""] * 2, [""]⟩] := by
    unfold searchCandidates stC6
    simp only []
    rw [show trimWs (lowerStr "") = "" from rfl]
    rw [show jsSplitWs "" = [""] from rfl]
    rw [show JsMap.values [("e.ts:0:0", nodeC6)] = [nodeC6] from rfl]
    rw [passOne_step_yes "" [""] nodeC6 [] [] [] rfl hpos rfl]
    rw [passOne]
    simp only [List.nil_append]
    rw [passTwo_step_added [""] [nodeC6.info.id] nodeC6 [] _ rfl]
    rw [passTwo]
    rw [if_neg (by simp [show strIncludes "" "interface" = false from rfl,
      show strIncludes "" "type" = false from rfl])]
  rw [searchThreePass, hcand, List.mergeSort_singleton]
  rfl

/-- Witness for the amended C6 at a concrete non-empty query and at the
empty query over the one-node index. -/
theorem C6_query_normalization_witness :
    (trimWs (lowerStr "Hello  World") ≠ ""
      ∧ ∀ t ∈ jsSplitWs (trimWs (lowerStr "Hello  World")), t ≠ "")
    ∧ (trimWs (lowerStr "  ") = ""
      ∧ ∀ node ∈ stC6.nodeIndex.values,
        ∃ r ∈ searchThreePass stC6 "  ", r.node.info.id = node.info.id) :=
  ⟨⟨by decide, (C6_query_normalization "Hello  World" stC6).1 (by decide)⟩,
   ⟨rfl, (C6_query_normalization "  " stC6).2 rfl⟩⟩

/-- Transitivity of the descending-score comparison. -/
theorem scoreGe_trans : ∀ (x y z : QueryResult),
    scoreGe x y → scoreGe y z → scoreGe x z := by
  intro x y z hxy hyz
  unfold scoreGe at *
  simp only [decide_eq_true_eq] at *
  exact le_trans hyz hxy

/-- Totality of the descending-score comparison. -/
theorem scoreGe_total : ∀ (x y : QueryResult), scoreGe x y || scoreGe y x := by
  intro x y
  unfold scoreGe
  rcases le_total x.score y.score with h | h
  · simp [h]
  · simp [h]

/-- C9: search results are sorted by descending score — every pair (in
particular every adjacent pair) of the output satisfies
`r_i.score ≥ r_{i+1}.score` — and the sort is stable: two equal-score
candidates that occur in a given encounter order during candidate scanning
occur in the same order in the output. -/
theorem C9_sorted_stable (st : IndexerState) (query : String) :
    (searchThreePass st query).Pairwise (fun a b => b.score ≤ a.score)
    ∧ ∀ a b : QueryResult, a.score = b.score →
        List.Sublist [a, b] (searchCandidates st query) →
        List.Sublist [a, b] (searchThreePass st query) := by
  constructor
  · have hs := List.sorted_mergeSort scoreGe_trans scoreGe_total (searchCandidates st query)
    refine hs.imp ?_
    intro a b hab
    unfold scoreGe at hab
    simpa using hab
  · intro a b hab hsub
    apply List.pair_sublist_mergeSort scoreGe_trans scoreGe_total
    · unfold scoreGe
      simp [hab]
    · exact hsub

/-- The C9 witness candidates evaluate to the two tied hits in encounter
order. -/
theorem candC9_eq : searchCandidates stC9 "hello" = [raC9, rbC9] := by
  have hA : calculateScore nodeC9a ["hello"] = 1 := by
    rw [calculateScore_eq]
    rw [show kindBoost nodeC9a = 1 from rfl, show sizeBoost nodeC9a = 1 from rfl,
      show nameBoost nodeC9a ["hello"] = 1 from rfl]
    norm_num
  have hB : calculateScore nodeC9b ["hello"] = 1 := by
    rw [calculateScore_eq]
    rw [show kindBoost nodeC9b = 1 from rfl, show sizeBoost nodeC9b = 1 from rfl,
      show nameBoost nodeC9b ["hello"] = 1 from rfl]
    norm_num
  unfold searchCandidates stC9
  simp only []
  rw [show trimWs (lowerStr "hello") = "hello" from rfl]
  rw [show jsSplitWs "hello" = ["hello"] from rfl]
  rw [show JsMap.values [("f.ts:0:0", nodeC9a), ("f.ts:1:0", nodeC9b)]
    = [nodeC9a, nodeC9b] from rfl]
  rw [passOne_step_yes "hello" ["hello"] nodeC9a [nodeC9b] [] [] rfl (by rw [hA]; norm_num) rfl]
  simp only [List.nil_append]
  rw [passOne_step_yes "hello" ["hello"] nodeC9b [] [nodeC9a.info.id]
    [⟨nodeC9a, calculateScore nodeC9a ["hello"] * 2, ["hello"]⟩] rfl (by rw [hB]; norm_num) rfl]
  rw [passOne]
  simp only [List.singleton_append]
  rw [passTwo_step_added ["hello"] [nodeC9a.info.id, nodeC9b.info.id] nodeC9a [nodeC9b] _ rfl]
  rw [passTwo_step_added ["hello"] [nodeC9a.info.id, nodeC9b.info.id] nodeC9b [] _ rfl]
  rw [passTwo]
  rw [if_neg (by decide)]
  rw [hA, hB]
  norm_num [raC9, rbC9]

/-- Witness for C9: the two concrete tied hits are adjacent in encounter
order among the candidates and stay in that order in the sorted output. -/
theorem C9_sorted_stable_witness :
    raC9.score = rbC9.score
    ∧ List.Sublist [raC9, rbC9] (searchCandidates stC9 "hello")
    ∧ List.Sublist [raC9, rbC9] (searchThreePass stC9 "hello") := by
  have hsub : List.Sublist [raC9, rbC9] (searchCandidates stC9 "hello") := by
    rw [candC9_eq]
  exact ⟨rfl, hsub, (C9_sorted_stable stC9 "hello").2 raC9 rbC9 rfl hsub⟩

/-- C10 failing input: the query "type zzz" over `stC10`. The second pass
pushes `nodeC10` (term "type" matches its text) without recording its id in
the dedup map, and the third pass — triggered because the query contains
"type" — pushes the same node again, so one node id occurs twice in the
returned results, contradicting the at-most-once claim (and the dedup
map's own stated purpose in the source comments). -/
theorem C10_duplicate_result :
    2 ≤ ((searchThreePass stC10 "type zzz").map (fun r => r.node.info.id)).count "g.ts:0:0" := by
  have hfilter : (["type", "zzz"].filter (fun term =>
      strIncludes (lowerStr nodeC10.info.text) term
      || strIncludes (lowerStr nodeC10.info.type) term
      || strIncludes (nodeNameLower nodeC10) term)) = ["type"] := rfl
  have hcand : searchCandidates stC10 "type zzz" =
      [⟨nodeC10, calculateScore nodeC10 ["type"], ["type"]⟩,
       ⟨nodeC10, calculateSpecialTypeScore nodeC10 ["type", "zzz"] * (3 / 2), ["interface"]⟩] := by
    unfold searchCandidates stC10
    simp only []
    rw [show trimWs (lowerStr "type zzz") = "type zzz" from rfl]
    rw [show jsSplitWs "type zzz" = ["type", "zzz"] from rfl]
    rw [show JsMap.values [("g.ts:0:0", nodeC10)] = [nodeC10] from rfl]
    rw [passOne_step_skip "type zzz" ["type", "zzz"] nodeC10 [] [] [] rfl]
    rw [passOne]
    rw [passTwo_step_yes ["type", "zzz"] [] nodeC10 [] [] rfl
      (by rw [hfilter]; decide)
      (by rw [hfilter]; exact calculateScore_pos nodeC10 ["type"] (by decide))]
    rw [hfilter]
    rw [passTwo]
    rw [if_pos (by decide)]
    rw [passThree_step_special ["type", "zzz"] [] nodeC10 [] _ rfl (Or.inl rfl)]
    rw [passThree]
    rfl
  have hperm := List.mergeSort_perm (searchCandidates stC10 "type zzz") scoreGe
  have hmap := hperm.map (fun r => r.node.info.id)
  have hcount := hmap.count_eq "g.ts:0:0"
  unfold searchThreePass at hcount ⊢
  rw [hcount, hcand]
  rfl

mutual

theorem has_removeNode : ∀ (m : JsMap CodeNode) (n : CodeNode) (k : String),
    (removeNode m n).has k = true ↔ m.has k = true ∧ k ∉ idsOf n
  | m, .mk i cs, k => by
    rw [removeNode, idsOf]
    rw [has_removeNodeList (m.del i.id) cs k]
    rw [JsMap.has_del]
    rw [List.mem_cons]
    tauto

theorem has_removeNodeList : ∀ (m : JsMap CodeNode) (l : List CodeNode) (k : String),
    (removeNodeList m l).has k = true ↔ m.has k = true ∧ k ∉ idsOfList l
  | m, [], k => by
    rw [removeNodeList, idsOfList]
    simp
  | m, c :: cs, k => by
    rw [removeNodeList, idsOfList]
    rw [has_removeNodeList (removeNode m c) cs k]
    rw [has_removeNode m c k]
    rw [List.mem_append]
    tauto

end

theorem mem_reachableIds (st : IndexerState) (k : String) :
    k ∈ reachableIds st ↔ ∃ p ∈ st.fileIndex, k ∈ idsOf p.2 := by
  unfold reachableIds
  rw [List.mem_flatten]
  constructor
  · rintro ⟨l, hl, hk⟩
    rw [List.mem_map] at hl
    obtain ⟨p, hp, he⟩ := hl
    exact ⟨p, hp, he ▸ hk⟩
  · rintro ⟨p, hp, hk⟩
    exact ⟨idsOf p.2, List.mem_map_of_mem _ hp, hk⟩

theorem JsMap.has_false_of_get_none {α : Type} (m : JsMap α) (k : String)
    (h : m.get k = none) : m.has k = false := by
  unfold JsMap.get at h
  unfold JsMap.has
  cases hf : List.find? (fun p => p.1 == k) m with
  | none => rfl
  | some p =>
    rw [hf] at h
    cases h

theorem rootOkFor_spec (st : IndexerState) (fp : String) (root : CodeNode)
    (h : rootOkFor st fp root = true) :
    ∀ p ∈ st.fileIndex, p.1 ≠ fp → ∀ i ∈ idsOf root, i ∉ idsOf p.2 := by
  intro p hp hne i hi hmem
  unfold rootOkFor at h
  rw [List.all_eq_true] at h
  have hpp := h p hp
  rw [Bool.or_eq_true] at hpp
  rcases hpp with h1 | h2
  · exact hne (beq_iff_eq.mp h1)
  · rw [List.all_eq_true] at h2
    have hii := h2 i hi
    rw [Bool.not_eq_true'] at hii
    rw [← @List.elem_iff String _ _ i (idsOf p.2)] at hmem
    have hii' : List.elem i (idsOf p.2) = false := hii
    rw [hmem] at hii'
    cases hii'

theorem sepIdsM_set (m : JsMap CodeNode) (fp : String) (root : CodeNode)
    (hsep : SepIdsM m)
    (hdisj : ∀ p ∈ m, p.1 ≠ fp → ∀ i ∈ idsOf root, i ∉ idsOf p.2) :
    SepIdsM (m.set fp root) := by
  intro p hp q hq hne i hip
  rw [JsMap.mem_set] at hp hq
  rcases hp with ⟨hpm, hpne⟩ | hpe
  · rcases hq with ⟨hqm, hqne⟩ | hqe
    · exact hsep p hpm q hqm hne i hip
    · rw [hqe]
      intro hir
      exact (hdisj p hpm hpne i hir) hip
  · rcases hq with ⟨hqm, hqne⟩ | hqe
    · rw [hpe] at hip
      exact hdisj q hqm hqne i hip
    · rw [hpe, hqe] at hne
      exact absurd rfl hne

theorem sepIdsM_del (m : JsMap CodeNode) (fp : String)
    (hsep : SepIdsM m) : SepIdsM (m.del fp) := by
  intro p hp q hq hne i hip
  rw [JsMap.mem_del] at hp hq
  exact hsep p hp.1 q hq.1 hne i hip

theorem good_update_none (st : IndexerState) (fp : String) (root : CodeNode)
    (hget : st.fileIndex.get fp = none)
    (hg : GoodSt st) (hok : rootOkFor st fp root = true) :
    GoodSt ⟨st.fileIndex.set fp root, indexNode st.nodeIndex root⟩ := by
  obtain ⟨hinv, hsep, hnd⟩ := hg
  have hhas : st.fileIndex.has fp = false := JsMap.has_false_of_get_none _ _ hget
  refine ⟨?_, ?_, ?_⟩
  · intro k
    show (indexNode st.nodeIndex root).has k = true ↔ _
    rw [has_indexNode]
    rw [mem_reachableIds]
    constructor
    · rintro (hk | hroot)
      · obtain ⟨p, hp, hkp⟩ := (mem_reachableIds st k).mp ((hinv k).mp hk)
        have hpfp : p.1 ≠ fp := by
          intro he
          have : st.fileIndex.has fp = true := by
            rw [JsMap.has_true_iff]
            exact ⟨p.2, by rw [← he, Prod.mk.eta]; exact hp⟩
          rw [hhas] at this
          cases this
        refine ⟨p, ?_, hkp⟩
        rw [JsMap.mem_set]
        exact Or.inl ⟨hp, hpfp⟩
      · exact ⟨(fp, root), by rw [JsMap.mem_set]; exact Or.inr rfl, hroot⟩
    · rintro ⟨p, hp, hkp⟩
      rw [JsMap.mem_set] at hp
      rcases hp with ⟨hpm, _⟩ | hpe
      · exact Or.inl ((hinv k).mpr ((mem_reachableIds st k).mpr ⟨p, hpm, hkp⟩))
      · rw [hpe] at hkp
        exact Or.inr hkp
  · exact sepIdsM_set st.fileIndex fp root hsep (rootOkFor_spec st fp root hok)
  · exact JsMap.keysOf_set_nodup st.fileIndex fp root hnd

theorem good_update_some (st : IndexerState) (fp : String) (old root : CodeNode)
    (hget : st.fileIndex.get fp = some old)
    (hg : GoodSt st) (hok : rootOkFor st fp root = true) :
    GoodSt ⟨st.fileIndex.set fp root, indexNode (removeNode st.nodeIndex old) root⟩ := by
  obtain ⟨hinv, hsep, hnd⟩ := hg
  have hold : (fp, old) ∈ st.fileIndex := JsMap.get_some_mem _ _ _ hget
  refine ⟨?_, ?_, ?_⟩
  · intro k
    show (indexNode (removeNode st.nodeIndex old) root).has k = true ↔ _
    rw [has_indexNode, has_removeNode]
    rw [mem_reachableIds]
    constructor
    · rintro (⟨hk, hnot⟩ | hroot)
      · obtain ⟨p, hp, hkp⟩ := (mem_reachableIds st k).mp ((hinv k).mp hk)
        have hpfp : p.1 ≠ fp := by
          intro he
          have hgetp : st.fileIndex.get p.1 = some p.2 := by
            apply JsMap.mem_get_of_nodup _ _ _ hnd
            rw [Prod.mk.eta]
            exact hp
          rw [he, hget] at hgetp
          injection hgetp with he2
          exact hnot (he2 ▸ hkp)
        refine ⟨p, ?_, hkp⟩
        rw [JsMap.mem_set]
        exact Or.inl ⟨hp, hpfp⟩
      · exact ⟨(fp, root), by rw [JsMap.mem_set]; exact Or.inr rfl, hroot⟩
    · rintro ⟨p, hp, hkp⟩
      rw [JsMap.mem_set] at hp
      rcases hp with ⟨hpm, hpne⟩ | hpe
      · refine Or.inl ⟨(hinv k).mpr ((mem_reachableIds st k).mpr ⟨p, hpm, hkp⟩), ?_⟩
        exact hsep p hpm (fp, old) hold hpne k hkp
      · rw [hpe] at hkp
        exact Or.inr hkp
  · exact sepIdsM_set st.fileIndex fp root hsep (rootOkFor_spec st fp root hok)
  · exact JsMap.keysOf_set_nodup st.fileIndex fp root hnd

theorem good_remove (st : IndexerState) (fp : String)
    (hg : GoodSt st) : GoodSt (removeFileS st fp) := by
  obtain ⟨hinv, hsep, hnd⟩ := hg
  unfold removeFileS
  cases hget : st.fileIndex.get fp with
  | none => exact ⟨hinv, hsep, hnd⟩
  | some root =>
    have hroot : (fp, root) ∈ st.fileIndex := JsMap.get_some_mem _ _ _ hget
    refine ⟨?_, ?_, ?_⟩
    · intro k
      show (removeNode st.nodeIndex root).has k = true ↔ _
      rw [has_removeNode]
      rw [mem_reachableIds]
      constructor
      · rintro ⟨hk, hnot⟩
        obtain ⟨p, hp, hkp⟩ := (mem_reachableIds st k).mp ((hinv k).mp hk)
        have hpfp : p.1 ≠ fp := by
          intro he
          have hgetp : st.fileIndex.get p.1 = some p.2 := by
            apply JsMap.mem_get_of_nodup _ _ _ hnd
            rw [Prod.mk.eta]
            exact hp
          rw [he, hget] at hgetp
          injection hgetp with he2
          exact hnot (he2 ▸ hkp)
        refine ⟨p, ?_, hkp⟩
        rw [JsMap.mem_del]
        exact ⟨hp, hpfp⟩
      · rintro ⟨p, hp, hkp⟩
        rw [JsMap.mem_del] at hp
        refine ⟨(hinv k).mpr ((mem_reachableIds st k).mpr ⟨p, hp.1, hkp⟩), ?_⟩
        exact hsep p hp.1 (fp, root) hroot hp.2 k hkp
    · exact sepIdsM_del st.fileIndex fp hsep
    · exact JsMap.keysOf_del_nodup st.fileIndex fp hnd

theorem good_runOps : ∀ (ops : List IndexOp) (st : IndexerState),
    OkOps st ops → GoodSt st → GoodSt (runOps st ops) := by
  intro ops
  induction ops with
  | nil =>
    intro st _ hg
    exact hg
  | cons op rest ih =>
    intro st hok hg
    cases hok with
    | index st fp root ops hfresh hrok hrest =>
      refine ih _ hrest ?_
      have hget : st.fileIndex.get fp = none := JsMap.get_eq_none _ _ hfresh
      show GoodSt (stepOp st (.indexF fp (.ok root)))
      have hstep : stepOp st (.indexF fp (.ok root)) =
          ⟨st.fileIndex.set fp root, indexNode st.nodeIndex root⟩ := rfl
      rw [hstep]
      exact good_update_none st fp root hget hg hrok
    | update st fp root ops hrok hrest =>
      refine ih _ hrest ?_
      show GoodSt (stepOp st (.updateF fp (.ok root)))
      cases hget : st.fileIndex.get fp with
      | none =>
        have hstep : stepOp st (.updateF fp (.ok root)) =
            ⟨st.fileIndex.set fp root, indexNode st.nodeIndex root⟩ := by
          show updateFileS st fp (.ok root) = _
          unfold updateFileS
          rw [hget]
          rfl
        rw [hstep]
        exact good_update_none st fp root hget hg hrok
      | some old =>
        have hstep : stepOp st (.updateF fp (.ok root)) =
            ⟨st.fileIndex.set fp root,
              indexNode (removeNode st.nodeIndex old) root⟩ := by
          show updateFileS st fp (.ok root) = _
          unfold updateFileS
          rw [hget]
          rfl
        rw [hstep]
        exact good_update_some st fp old root hget hg hrok
    | remove st fp ops hrest =>
      refine ih _ hrest ?_
      show GoodSt (stepOp st (.removeF fp))
      exact good_remove st fp hg

/-- The empty indexer state satisfies the carried invariant. -/
theorem goodSt_init : GoodSt initState := by
  refine ⟨?_, ?_, ?_⟩
  · intro k
    constructor
    · intro h
      cases h
    · intro h
      cases h
  · intro p hp
    cases hp
  · exact List.nodup_nil

/-- C1 (amended): for every admissible sequence of mutating calls — every
`indexFile` targets a file not currently indexed, every `updateFile`
re-parses successfully, new roots have ids disjoint from the other files'
roots (the parser's id-uniqueness guarantee), and `removeFile` (modelled
from the spec) is unrestricted — NodeIndex's keys afterwards are exactly
the ids reachable from the roots in FileIndex. In particular, after
`indexFile(F)` then a successful `updateFile(F)` starting from an empty
index, NodeIndex holds exactly the ids of the second materialization. The
invariant does not survive an `updateFile` whose re-parse fails or whose
extension has no parser (see the counterexample). -/
theorem C1_index_invariant (ops : List IndexOp) (h : OkOps initState ops) :
    IndexInv (runOps initState ops)
    ∧ ∀ (fp : String) (t1 t2 : CodeNode) (k : String),
      JsMap.has (runOps initState
          [.indexF fp (.ok t1), .updateF fp (.ok t2)]).nodeIndex k = true
        ↔ k ∈ idsOf t2 := by
  constructor
  · exact (good_runOps ops initState h goodSt_init).1
  · intro fp t1 t2 k
    have hget : JsMap.get ([] ++ [(fp, t1)] : JsMap CodeNode) fp = some t1 := by
      unfold JsMap.get
      simp
    have hstep : runOps initState [.indexF fp (.ok t1), .updateF fp (.ok t2)] =
        ⟨JsMap.set ([] ++ [(fp, t1)]) fp t2,
          indexNode (removeNode (indexNode [] t1) t1) t2⟩ := by
      show stepOp (stepOp initState (.indexF fp (.ok t1))) (.updateF fp (.ok t2)) = _
      have h1 : stepOp initState (.indexF fp (.ok t1)) =
          ⟨[] ++ [(fp, t1)], indexNode [] t1⟩ := rfl
      rw [h1]
      show updateFileS _ fp (.ok t2) = _
      unfold updateFileS
      rw [hget]
      rfl
    rw [hstep]
    show (indexNode (removeNode (indexNode [] t1) t1) t2).has k = true ↔ _
    rw [has_indexNode, has_removeNode, has_indexNode]
    have hempty : JsMap.has ([] : JsMap CodeNode) k = false := rfl
    rw [hempty]
    constructor
    · rintro (⟨hk, hnot⟩ | h2)
      · rcases hk with hfalse | hmem
        · cases hfalse
        · exact absurd hmem hnot
      · exact h2
    · intro h2
      exact Or.inr h2

/-- Counterexample to C1 as stated: after `indexFile("a.ts")` succeeds and
`updateFile("a.ts")` hits a parse error, the old root is still in FileIndex
but its ids have been evicted from NodeIndex — a reachable node missing
from NodeIndex, so the claimed invariant fails for sequences that include a
failing `updateFile`. -/
theorem C1_counterexample :
    ¬ IndexInv (runOps initState
      [.indexF "a.ts" (.ok nodeC1), .updateF "a.ts" .parseError]) := by
  intro h
  have hmem : "a.ts:0:0" ∈ reachableIds (runOps initState
      [.indexF "a.ts" (.ok nodeC1), .updateF "a.ts" .parseError]) := by decide
  have hhas := (h "a.ts:0:0").mpr hmem
  have hfalse : JsMap.has (runOps initState
      [.indexF "a.ts" (.ok nodeC1), .updateF "a.ts" .parseError]).nodeIndex
      "a.ts:0:0" = false := by decide
  rw [hfalse] at hhas
  cases hhas

/-- Witness for the amended C1: a concrete admissible one-operation run, on
which the invariant then holds. -/
theorem C1_index_invariant_witness :
    OkOps initState [.indexF "a.ts" (.ok nodeC1)]
    ∧ IndexInv (runOps initState [.indexF "a.ts" (.ok nodeC1)]) := by
  have hok : OkOps initState [.indexF "a.ts" (.ok nodeC1)] :=
    OkOps.index initState "a.ts" nodeC1 [] rfl rfl
      (OkOps.nil _)
  exact ⟨hok, (C1_index_invariant [.indexF "a.ts" (.ok nodeC1)] hok).1⟩
